import Mathlib

/-!
Verification development for the epsteinlib C library.

The repository computes the (regularized) Epstein zeta function via
Crandall's decomposition.  This file gives a shallow embedding of the
relevant C sources into Lean:

* C `double` values are modelled as exact real numbers (`ℝ`); decimal
  literals of the C source are read as the exact rationals they denote,
  and libm functions (`exp`, `log`, `tgamma`, `pow`, ...) are modelled by
  the exact mathematical functions they approximate.
* C `double complex` values are modelled as `ℂ` where no NaN can occur.
  Where the source can produce a NaN/non-finite component
  (the pole branch `res = NAN` of `epsteinZetaInternal`, and the LU
  inversion when a pivot is zero), a component is modelled as
  `Option ℝ`, with `none` standing for a non-finite double (infinity or
  NaN).  Arithmetic on `Option ℝ` propagates `none`; this is a
  conservative abstraction of IEEE-754 (every operation on a NaN yields
  NaN; the operations actually reached by the theorems below only ever
  produce `none` from exact divisions by zero, where IEEE-754 likewise
  yields a non-finite result).
* Kahan compensated summation is embedded as the plain sum: in exact real
  arithmetic the compensation term `(auxt - sum) - auxy` vanishes
  identically, so the compensated loop computes the plain sum.
* The fixed-length C loops are embedded as bounded recursions or
  `Finset` sums in the same iteration order.

The embedding covers `src/src/zeta.c`, `src/src/epsteinZeta.c`,
`src/src/crandall.c` (newer revision) and `src/C/src/gamma.c`,
`src/C/src/tools.c`, `src/C/src/crandall.c` (older revision, namespace
`CRev` for its `crandall_gReg`; `gamma.c` and `tools.c` exist only in
that revision and serve both).
-/

open scoped Classical

noncomputable section

namespace Epstein

/-! ### IEEE rounding helpers: `nearbyint` and `remainder` (round half to even) -/

/-- Embedding of C `nearbyint` in the default rounding mode: round to the
nearest integer, ties to even. -/
def roundEvenZ (x : ℝ) : ℤ :=
  if Int.fract x < 1/2 then ⌊x⌋
  else if 1/2 < Int.fract x then ⌊x⌋ + 1
  else if Even ⌊x⌋ then ⌊x⌋ else ⌊x⌋ + 1

/-- C `nearbyint` as a real-valued function (the C function returns `double`). -/
def nearbyint (x : ℝ) : ℝ := (roundEvenZ x : ℝ)

/-- Embedding of C `remainder(x, 1)`: `x - n` where `n` is `x` rounded to the
nearest integer, ties to even. -/
def fpRemainder (x : ℝ) : ℝ := x - (roundEvenZ x : ℝ)

/-- The constant `EGF_EPS = ldexp(1, -54)` of gamma.c. -/
def egfEps : ℝ := (2:ℝ)^(-54 : ℤ)

/-- The constant `EPS = ldexp(1, -32)` of tools.c. -/
def toolsEps : ℝ := (2:ℝ)^(-32 : ℤ)

/-- The constant `EPS = ldexp(1, -30)` of zeta.c and crandall.c. -/
def zetaEps : ℝ := (2:ℝ)^(-30 : ℤ)

/-- The constant `EPS_ZERO_Y = 1e-64` of zeta.c. -/
def epsZeroY : ℝ := (10:ℝ)^(-64 : ℤ)

theorem egfEps_pos : 0 < egfEps := by rw [egfEps]; positivity

theorem egfEps_lt_half : egfEps < 1/2 := by rw [egfEps]; norm_num

theorem zetaEps_pos : 0 < zetaEps := by rw [zetaEps]; positivity

theorem zetaEps_le : zetaEps ≤ 1/4 := by rw [zetaEps]; norm_num

theorem roundEvenZ_intCast (n : ℤ) : roundEvenZ (n : ℝ) = n := by
  simp [roundEvenZ, Int.fract_intCast]

theorem roundEvenZ_eq_of_abs_lt (x : ℝ) (n : ℤ) (h : |x - n| < 1/2) :
    roundEvenZ x = n := by
  rcases abs_lt.mp h with ⟨h1, h2⟩
  rcases le_or_lt (n : ℝ) x with hge | hlt
  · have hfl : ⌊x⌋ = n := by
      rw [Int.floor_eq_iff]
      constructor
      · exact hge
      · linarith
    have hfr : Int.fract x = x - n := by rw [Int.fract, hfl]
    rw [roundEvenZ, if_pos]
    · exact hfl
    · rw [hfr]; linarith
  · have hfl : ⌊x⌋ = n - 1 := by
      rw [Int.floor_eq_iff]
      push_cast
      constructor <;> linarith
    have hfr : Int.fract x = x - n + 1 := by rw [Int.fract, hfl]; push_cast; ring
    rw [roundEvenZ, if_neg, if_pos]
    · omega
    · rw [hfr]; linarith
    · rw [hfr]; push_neg; linarith

theorem roundEvenZ_eq_zero (x : ℝ) (h1 : -(1/2) ≤ x) (h2 : x ≤ 1/2) :
    roundEvenZ x = 0 := by
  rcases le_or_lt 0 x with hx0 | hx0
  · rcases lt_or_eq_of_le h2 with hlt | heq
    · exact roundEvenZ_eq_of_abs_lt x 0 (by rw [abs_lt]; push_cast; constructor <;> linarith)
    · have hfl : ⌊x⌋ = 0 := by rw [heq]; norm_num
      have hfr : Int.fract x = 1/2 := by rw [Int.fract, hfl, heq]; norm_num
      rw [roundEvenZ, if_neg (by rw [hfr]; norm_num), if_neg (by rw [hfr]; norm_num),
        if_pos (by rw [hfl]; exact even_zero)]
      exact hfl
  · rcases lt_or_eq_of_le h1 with hlt | heq
    · exact roundEvenZ_eq_of_abs_lt x 0 (by rw [abs_lt]; push_cast; constructor <;> linarith)
    · have hfl : ⌊x⌋ = -1 := by
        rw [Int.floor_eq_iff]
        push_cast
        constructor <;> linarith
      have hfr : Int.fract x = 1/2 := by rw [Int.fract, hfl, ← heq]; push_cast; ring
      rw [roundEvenZ, if_neg (by rw [hfr]; norm_num), if_neg (by rw [hfr]; norm_num),
        if_neg (by rw [hfl]; decide)]
      omega

theorem fpRemainder_of_mem (x : ℝ) (h1 : -(1/2) ≤ x) (h2 : x ≤ 1/2) :
    fpRemainder x = x := by
  rw [fpRemainder, roundEvenZ_eq_zero x h1 h2]; push_cast; ring

theorem abs_fpRemainder_le (x : ℝ) : |fpRemainder x| ≤ 1/2 := by
  have hfr0 : 0 ≤ Int.fract x := Int.fract_nonneg x
  have hfr1 : Int.fract x < 1 := Int.fract_lt_one x
  have hx : x - (⌊x⌋ : ℝ) = Int.fract x := rfl
  rw [fpRemainder, roundEvenZ]
  split_ifs with hc1 hc2 hc3
  · rw [abs_le, hx]; constructor <;> linarith
  · rw [abs_le]; push_cast; constructor <;> nlinarith [hx]
  · rw [abs_le, hx]
    have : Int.fract x = 1/2 := by linarith
    constructor <;> linarith
  · rw [abs_le]; push_cast
    have : Int.fract x = 1/2 := by linarith
    constructor <;> nlinarith [hx]

/-! ### Non-finite tracking doubles

`Option ℝ` models a C `double`, with `none` standing for a non-finite
value (NaN or infinity).  `CD` models a C `double complex` as a pair of
such components. -/

/-- Multiplication of possibly non-finite doubles (`none` propagates). -/
def omul (a b : Option ℝ) : Option ℝ := Option.map₂ (fun x y => x * y) a b

/-- Addition of possibly non-finite doubles (`none` propagates). -/
def oadd (a b : Option ℝ) : Option ℝ := Option.map₂ (fun x y => x + y) a b

/-- Subtraction of possibly non-finite doubles (`none` propagates). -/
def osub (a b : Option ℝ) : Option ℝ := Option.map₂ (fun x y => x - y) a b

/-- Division of possibly non-finite doubles.  A division by (exact) zero
produces a non-finite value, as in IEEE-754 arithmetic; `none` propagates. -/
def odiv (a b : Option ℝ) : Option ℝ :=
  match a, b with
  | some x, some y => if y = 0 then none else some (x / y)
  | _, _ => none

/-- A C `double complex` with possibly non-finite components. -/
def CD : Type := Option ℝ × Option ℝ

/-- A finite complex value, as a `CD`. -/
def fromC (z : ℂ) : CD := (some z.re, some z.im)

/-- The value stored by the C statement `res = NAN`: the real part is NaN
and the imaginary part is zero (C real-to-complex conversion). -/
def cNaN : CD := (none, some 0)

/-- C multiplication of a `double complex` by a real `double`: performed
componentwise (C99 Annex G mixed real/complex arithmetic). -/
def scaleCD (z : CD) (c : ℝ) : CD := (omul z.1 (some c), omul z.2 (some c))

/-- C addition of a real `double` to a `double complex`: only the real
component is affected (C99 Annex G). -/
def addReCD (z : CD) (c : ℝ) : CD := (oadd z.1 (some c), z.2)

/-- C subtraction of a real `double` from a `double complex`. -/
def subReCD (z : CD) (c : ℝ) : CD := (osub z.1 (some c), z.2)

/-- C multiplication of a finite `double complex` by a possibly
non-finite one, componentwise by the complex product formula. -/
def cmulCD (w : ℂ) (z : CD) : CD :=
  (osub (omul (some w.re) z.1) (omul (some w.im) z.2),
   oadd (omul (some w.re) z.2) (omul (some w.im) z.1))

theorem scaleCD_fromC (w : ℂ) (c : ℝ) : scaleCD (fromC w) c = fromC (w * (c : ℂ)) := by
  simp [scaleCD, fromC, omul, Option.map₂]

/-! ### tools.c: linear algebra primitives -/

/-- Embedding of `dot` from tools.c: euclidean dot product of the first
`dim` components. -/
def dot (dim : ℕ) (v1 v2 : ℕ → ℝ) : ℝ := ∑ i ∈ Finset.range dim, v1 i * v2 i

/-- Embedding of `equals` from tools.c: componentwise closeness up to
`ldexp(1,-32)`. -/
def equals (dim : ℕ) (v1 v2 : ℕ → ℝ) : Prop :=
  ∀ i < dim, |v1 i - v2 i| < toolsEps

/-- Absolute row sum, helper for `inf_norm`. -/
def rowAbsSum (dim : ℕ) (m : ℕ → ℕ → ℝ) (i : ℕ) : ℝ :=
  ∑ j ∈ Finset.range dim, |m i j|

/-- Embedding of `inf_norm` from tools.c: maximum absolute row sum (the C
loop seeds the maximum with row 0 and scans rows 1..dim-1). -/
def inf_norm (dim : ℕ) (m : ℕ → ℕ → ℝ) : ℝ :=
  List.foldl (fun r i => max r (rowAbsSum dim m i)) (rowAbsSum dim m 0)
    (List.range' 1 (dim - 1))

/-! ### tools.c: LU inversion (`invert`)

Two embeddings of the same C function are given.

* `invert` works on matrices of possibly non-finite doubles
  (`Option ℝ`): the C routine has no error channel and no pivot
  tolerance check; when a pivot is exactly zero, its IEEE divisions
  produce non-finite values (`none`), which is how a singular generator
  surfaces.  This version settles the error-signalling claim.
* `invertR` is the exact-real version used inside the zeta engine
  (the caller guarantees a nonsingular generator there).
-/

/-- The pivot comparison `fabs(m[i][j]) > fabs(m[i][r])` on possibly
non-finite doubles.  An IEEE comparison involving NaN is false; the
theorems below only exercise the comparison on finite entries. -/
def absGtO : Option ℝ → Option ℝ → Prop
  | some a, some b => |b| < |a|
  | _, _ => False

/-- Column pivot search of `invert` (tools.c): starting from `r = i`,
scan `j = i+1 .. dim-1` and replace `r` by `j` whenever
`fabs(m[i][j]) > fabs(m[i][r])`. -/
def pivotIndex (dim : ℕ) (m : ℕ → ℕ → Option ℝ) (i : ℕ) : ℕ :=
  List.foldl (fun r j => if absGtO (m i j) (m i r) then j else r) i
    (List.range' (i+1) (dim - (i+1)))

/-- Swap the values of a function at indices `i` and `r` (used for the
permutation vector `p` and, rowwise, for the matrix). -/
def swap2 {α : Type} (i r : ℕ) (f : ℕ → α) : ℕ → α :=
  fun k => if k = i then f r else if k = r then f i else f k

/-- Swap rows `i` and `r` of a matrix, as in the C permutation loop. -/
def swapRows {α : Type} (i r : ℕ) (m : ℕ → ℕ → α) : ℕ → ℕ → α :=
  fun k j => if k = i then m r j else if k = r then m i j else m k j

/-- One step `i` of the elimination loop of `invert` (tools.c): pivot
search, swap of `p[i], p[r]` and of rows `i, r`, then the standard LU
update of rows `k > i`: `m[k][i] /= m[i][i]` and
`m[k][j] -= m[k][i] * m[i][j]` for `j > i`. -/
def elimStep (dim : ℕ) (st : (ℕ → ℕ → Option ℝ) × (ℕ → ℕ)) (i : ℕ) :
    (ℕ → ℕ → Option ℝ) × (ℕ → ℕ) :=
  let r := pivotIndex dim st.1 i
  let mm := swapRows i r st.1
  (fun k j =>
     if i < k ∧ k < dim ∧ i ≤ j ∧ j < dim then
       if j = i then odiv (mm k i) (mm i i)
       else osub (mm k j) (omul (odiv (mm k i) (mm i i)) (mm i j))
     else mm k j,
   swap2 i r st.2)

/-- The full in-place LU elimination of `invert` (tools.c), starting from
the identity permutation. -/
def elimState (dim : ℕ) (m0 : ℕ → ℕ → Option ℝ) :
    (ℕ → ℕ → Option ℝ) × (ℕ → ℕ) :=
  List.foldl (elimStep dim) (m0, fun k => k) (List.range dim)

/-- The diagonal of the eliminated matrix; entry `i` is exactly the pivot
the elimination divided by at step `i`, and the divisor used again in the
back substitution. -/
def elimDiag (dim : ℕ) (m0 : ℕ → ℕ → Option ℝ) (i : ℕ) : Option ℝ :=
  (elimState dim m0).1 i i

/-- Forward substitution of `invert` (tools.c): solve `L y = e_{p[i]}`;
`y[j] = 0` below `p[i]`, `y[p[i]] = 1`, and each later entry subtracts
`m[k][j] * y[j]` for `j = p[i] .. k-1`. -/
def forwardSolve (dim : ℕ) (m : ℕ → ℕ → Option ℝ) (pidx : ℕ) : ℕ → Option ℝ :=
  List.foldl
    (fun y k =>
       Function.update y k
         (List.foldl (fun acc j => osub acc (omul (m k j) (y j))) (some 0)
            (List.range' pidx (k - pidx))))
    (fun j => if j = pidx then some 1 else some 0)
    (List.range' (pidx + 1) (dim - (pidx + 1)))

/-- Back substitution of `invert` (tools.c) for column `i` of the inverse:
downward over `j`, set `r[j][i]` to `y[j]` minus the already-computed
contributions, divided by the diagonal entry `m[j][j]`. -/
def backSolve (dim : ℕ) (m : ℕ → ℕ → Option ℝ) (y : ℕ → Option ℝ) (i : ℕ)
    (rmat : ℕ → ℕ → Option ℝ) : ℕ → ℕ → Option ℝ :=
  List.foldl
    (fun rm j =>
       let v := odiv
         (List.foldl (fun acc k => osub acc (omul (m j k) (rm k i))) (y j)
            (List.range' (j+1) (dim - (j+1))))
         (m j j)
       fun k l => if k = j ∧ l = i then v else rm k l)
    rmat (List.range dim).reverse

/-- Embedding of `invert` from tools.c on possibly non-finite doubles:
LU elimination followed by one forward/backward solve per column.  The C
routine leaves the result matrix uninitialized; every entry `(j, i)` with
`j, i < dim` is written before being read, so the initial value is
irrelevant and taken to be `0`. -/
def invert (dim : ℕ) (m0 : ℕ → ℕ → Option ℝ) : ℕ → ℕ → Option ℝ :=
  let st := elimState dim m0
  List.foldl
    (fun rm i => backSolve dim st.1 (forwardSolve dim st.1 (st.2 i)) i rm)
    (fun _ _ => some 0) (List.range dim)

/-- Exact-real pivot search of `invert`, as `pivotIndex`. -/
def pivotIndexR (dim : ℕ) (m : ℕ → ℕ → ℝ) (i : ℕ) : ℕ :=
  List.foldl (fun r j => if |m i r| < |m i j| then j else r) i
    (List.range' (i+1) (dim - (i+1)))

/-- Exact-real elimination step of `invert`, as `elimStep`. -/
def elimStepR (dim : ℕ) (st : (ℕ → ℕ → ℝ) × (ℕ → ℕ)) (i : ℕ) :
    (ℕ → ℕ → ℝ) × (ℕ → ℕ) :=
  let r := pivotIndexR dim st.1 i
  let mm := swapRows i r st.1
  (fun k j =>
     if i < k ∧ k < dim ∧ i ≤ j ∧ j < dim then
       if j = i then mm k i / mm i i
       else mm k j - mm k i / mm i i * mm i j
     else mm k j,
   swap2 i r st.2)

/-- Exact-real LU elimination of `invert`, as `elimState`. -/
def elimStateR (dim : ℕ) (m0 : ℕ → ℕ → ℝ) : (ℕ → ℕ → ℝ) × (ℕ → ℕ) :=
  List.foldl (elimStepR dim) (m0, fun k => k) (List.range dim)

/-- Exact-real forward substitution of `invert`, as `forwardSolve`. -/
def forwardSolveR (dim : ℕ) (m : ℕ → ℕ → ℝ) (pidx : ℕ) : ℕ → ℝ :=
  List.foldl
    (fun y k =>
       Function.update y k
         (List.foldl (fun acc j => acc - m k j * y j) 0
            (List.range' pidx (k - pidx))))
    (fun j => if j = pidx then 1 else 0)
    (List.range' (pidx + 1) (dim - (pidx + 1)))

/-- Exact-real back substitution of `invert`, as `backSolve`. -/
def backSolveR (dim : ℕ) (m : ℕ → ℕ → ℝ) (y : ℕ → ℝ) (i : ℕ)
    (rmat : ℕ → ℕ → ℝ) : ℕ → ℕ → ℝ :=
  List.foldl
    (fun rm j =>
       let v := (List.foldl (fun acc k => acc - m j k * rm k i) (y j)
            (List.range' (j+1) (dim - (j+1)))) / m j j
       fun k l => if k = j ∧ l = i then v else rm k l)
    rmat (List.range dim).reverse

/-- Exact-real embedding of `invert` from tools.c, used inside the zeta
engine where the caller guarantees a nonsingular generator. -/
def invertR (dim : ℕ) (m0 : ℕ → ℕ → ℝ) : ℕ → ℕ → ℝ :=
  let st := elimStateR dim m0
  List.foldl
    (fun rm i => backSolveR dim st.1 (forwardSolveR dim st.1 (st.2 i)) i rm)
    (fun _ _ => 0) (List.range dim)

/-! ### gamma.c: incomplete gamma kernel -/

/-- The five algorithmic regimes of the incomplete gamma kernel
(`enum dom` in gamma.c). -/
inductive EgfDom
  | pt
  | qt
  | cf
  | ua
  | rek
deriving DecidableEq

/-- The threshold `alpha` computed by both dispatchers in gamma.c:
`x` when `x >= 0.5`, else `log(0.5) / log(0.5 * x)`. -/
def egfAlpha (x : ℝ) : ℝ :=
  if 0.5 ≤ x then x else Real.log 0.5 / Real.log (0.5 * x)

/-- Embedding of `egf_domain` from gamma.c: regime selection for the
upper incomplete gamma function. -/
def egf_domain (a x : ℝ) : EgfDom :=
  if a ≤ egfAlpha x then
    if x ≤ 1.5 ∧ -0.5 ≤ a then .qt
    else if x ≤ 1.5 then .rek
    else if 12 ≤ a ∧ x / 2.35 ≤ a then .ua
    else .cf
  else if 12 ≤ a ∧ 0.3 * a ≤ x then .ua
  else .pt

/-- Embedding of `egf_ldomain` from gamma.c: regime selection for the
regularized lower incomplete gamma function. -/
def egf_ldomain (a x : ℝ) : EgfDom :=
  if a ≤ egfAlpha x then
    if x ≤ 1.5 ∧ (-0.5 ≤ a ∨ (-0.75 ≤ a ∧ x ≤ 2 * (2:ℝ)^(-15 : ℤ))) then .pt
    else if x ≤ 1.5 then .rek
    else if 12 ≤ a ∧ x / 2.35 ≤ a then .ua
    else .cf
  else if 12 ≤ a ∧ 0.3 * a ≤ x then .ua
  else .pt

/-- The series loop of `egf_pt` (gamma.c): up to 80 terms or relative
tolerance `ldexp(1,-54)`. -/
def egf_ptGo (a x : ℝ) (i : ℕ) (sn add : ℝ) : ℝ :=
  if h : i < 80 then
    if egfEps ≤ |add / sn| then
      egf_ptGo a x (i+1) (sn + add) (add * (x / (a + i + 1)))
    else sn
  else sn
termination_by 80 - i

/-- Embedding of `egf_pt` from gamma.c: ascending series for the
regularized lower incomplete gamma function. -/
def egf_pt (a x : ℝ) : ℝ :=
  egf_ptGo a x 1 1 (x / (a + 1)) * Real.exp (-x) / Real.Gamma (a + 1)

/-- The 21 hard-coded Taylor coefficients of `egf_qt` (gamma.c). -/
def egfQtTaylor (n : ℕ) : ℝ :=
  [-0.57721566490153286061, 0.078662406618721020471,
   0.120665041652816256, -0.045873569729475233502,
   -0.003675835173930896754, 0.0059461363539460768081,
   -0.0012728068927170227343, -0.00010763930085795762215,
   0.00010760237325699335067, -0.000020447909131122835485,
   -3.1305435033459682903e-7, 9.3743913180807382831e-7,
   -1.9558810017362205406e-7, 1.0045741524138656286e-8,
   3.9296464196572404677e-9, -1.0723612248119824624e-9,
   1.0891334567503768218e-10, 4.5706745059276311356e-12,
   -3.2115889339774401184e-12, 4.8521668466476558978e-13,
   -2.4820344080682008122e-14].getD n 0

/-- Embedding of `egf_qt` from gamma.c: Gautschi's algorithm for small
arguments, with the Taylor expansion of `Gamma(1+a)` around `0`. -/
def egf_qt (a x : ℝ) : ℝ :=
  let u : ℝ :=
    if |a| < 0.5 then
      let u1 := ∑ i ∈ Finset.range 21, egfQtTaylor i * a ^ i
      let y := a * Real.log x
      let u2 := if |y| < 1 then ∑ n ∈ Finset.range 30, y ^ n / ((n+1).factorial : ℝ)
                else (Real.exp y - 1) / y
      Real.Gamma (1 + a) * (1 - a) * u1 - u2 * Real.log x
    else Real.Gamma a - Real.rpow x a / a
  let v := -Real.rpow x a *
    ∑ i ∈ Finset.range 30, (-x) ^ (i+1) / ((i+1).factorial : ℝ) / (a + (i+1))
  u + v

/-- The continued fraction loop of `egf_cf` (gamma.c): modified Lentz
iteration, up to 200 levels or relative tolerance `ldexp(1,-54)`. -/
def egf_cfGo (a x : ℝ) (k : ℕ) (s rp rv : ℝ) : ℝ :=
  if _h : k ≤ 200 then
    if egfEps ≤ |rp / s| then
      let ak := k * (a - k) / ((x + 2*k - 1 - a) * (x + 2*k + 1 - a))
      let rv2 := -ak * (1 + rv) / (1 + ak * (1 + rv))
      egf_cfGo a x (k+1) (s + rp * rv2) (rp * rv2) rv2
    else s
  else s
termination_by 201 - k

/-- Embedding of `egf_cf` from gamma.c: continued fraction for the upper
incomplete gamma function. -/
def egf_cf (a x : ℝ) : ℝ :=
  egf_cfGo a x 1 1 1 0 * Real.rpow x a * Real.exp (-x) / (x + 1 - a)

/-- Truncation toward zero, as the C cast `(int)`. -/
def ctrunc (x : ℝ) : ℤ := if 0 ≤ x then ⌊x⌋ else -⌊-x⌋

/-- Embedding of `egf_rek` from gamma.c: downward recurrence after
reducing `a` to `epsilon = a + m` with `m = (int)(0.5 - a)`. -/
def egf_rek (a x : ℝ) : ℝ :=
  let mz := ctrunc (0.5 - a)
  let eps := a + mz
  let g0 := egf_qt eps x * Real.exp x * Real.rpow x (-eps)
  List.foldl (fun g n => 1 / ((n:ℝ) - eps) * (1 - x * g)) g0 (List.range' 1 mz.toNat)

/-- The 27 hard-coded coefficients `d` of the uniform asymptotic
expansion (`egf_ua_r` in gamma.c). -/
def egfUaD (n : ℕ) : ℝ :=
  [1.0, -1.0/3.0, 1.0/12.0, -2.0/135.0, 1.0/864.0, 1.0/2835.0,
   -139.0/777600.0, 1.0/25515.0, -571.0/261273600.0, -281.0/151559100.0,
   8.29671134095308601e-7, -1.76659527368260793e-7, 6.70785354340149857e-9,
   1.02618097842403080e-8, -4.38203601845335319e-9, 9.14769958223679023e-10,
   -2.55141939949462497e-11, -5.83077213255042507e-11, 2.43619480206674162e-11,
   -5.02766928011417559e-12, 1.10043920319561347e-13, 3.37176326240098538e-13,
   -1.39238872241816207e-13, 2.85348938070474432e-14, -5.13911183424257258e-16,
   -1.97522882943494428e-15, 8.09952115670456133e-16].getD n 0

/-- The backward recurrence `beta` of `egf_ua_r` (gamma.c):
`beta[25] = d[26]`, `beta[24] = d[25]`, and
`beta[n] = (n+2) * beta[n+2] / a + d[n+1]` for `n = 23 .. 0`.
Indices above 25 are never read by the C code and are set to `0`. -/
def egfUaBeta (a : ℝ) (n : ℕ) : ℝ :=
  if h : 24 ≤ n then
    if n = 25 then egfUaD 26 else if n = 24 then egfUaD 25 else 0
  else ((n:ℝ) + 2) * egfUaBeta a (n+2) / a + egfUaD (n+1)
termination_by 26 - n

/-- Embedding of `egf_ua_r` from gamma.c. -/
def egf_ua_r (a eta : ℝ) : ℝ :=
  let s := (∑ i ∈ Finset.range 26, egfUaBeta a i * eta ^ i) * (a / (a + egfUaBeta a 1))
  s * Real.exp (-0.5 * a * eta * eta) / Real.sqrt (2 * Real.pi * a)

/-- The libm complementary error function used by the UA regime, modelled
by its mathematical definition (it is external to the repository). -/
def erfc (t : ℝ) : ℝ :=
  1 - 2 / Real.sqrt Real.pi * ∫ s in (0:ℝ)..t, Real.exp (-(s^2))

/-- Embedding of `egf_ua` from gamma.c: uniform asymptotic expansion. -/
def egf_ua (a x : ℝ) : ℝ :=
  let lam := x / a
  let eta0 := Real.sqrt (2 * (lam - 1 - Real.log lam))
  let eta := if lam - 1 < 0 then -eta0 else eta0
  0.5 * erfc (eta * Real.sqrt (a / 2)) + egf_ua_r a eta

/-- Embedding of `egf_ugamma` from gamma.c: the upper incomplete gamma
function, dispatching on `egf_domain`. -/
def egf_ugamma (a x : ℝ) : ℝ :=
  match egf_domain a x with
  | .pt => Real.Gamma a * (1 - egf_pt a x * Real.rpow x a)
  | .qt => egf_qt a x
  | .cf => egf_cf a x
  | .ua => Real.Gamma a * egf_ua a x
  | .rek => Real.exp (-x) * Real.rpow x a * egf_rek a x

/-- Embedding of `egf_gammaStar` from gamma.c: the doubly regularized
lower incomplete gamma function, dispatching on `egf_ldomain`, with the
dedicated branch at `x` within `ldexp(1,-54)` of `0`. -/
def egf_gammaStar (a x : ℝ) : ℝ :=
  if |x| < egfEps then
    if a ≤ 0.1 ∧ |a - nearbyint a| < egfEps then 0
    else 1 / Real.Gamma (a + 1)
  else
    match egf_ldomain a x with
    | .pt => egf_pt a x
    | .qt => egf_pt a x
    | .cf =>
        if a ≤ 0.1 ∧ |a - nearbyint a| < egfEps then Real.rpow x (-a)
        else (1 - egf_cf a x / Real.Gamma a) * Real.rpow x (-a)
    | .ua => (1 - egf_ua a x) * Real.rpow x (-a)
    | .rek =>
        if a ≤ 0.1 ∧ |a - nearbyint a| < egfEps then Real.rpow x (-a)
        else (1 - Real.exp (-x) * Real.rpow x a * egf_rek a x / Real.Gamma a) *
          Real.rpow x (-a)

/-! ### crandall.c: Crandall's G function and its regularization -/

/-- The squared argument `pi * prefactor^2 * |z|^2` shared by the
crandall.c routines (`zArgument` in the source). -/
def crandallArg (dim : ℕ) (z : ℕ → ℝ) (prefactor : ℝ) : ℝ :=
  dot dim z z * (Real.pi * prefactor * prefactor)

/-- Embedding of `assignzArgBound` from crandall.c (identical in both
revisions): the threshold above which the asymptotic expansion of the
upper incomplete gamma function is used, by range of `nu`. -/
def assignzArgBound (nu : ℝ) : ℝ :=
  if (2 - zetaEps < nu ∧ nu < 2 + zetaEps) ∨
     (4 - zetaEps < nu ∧ nu < 4 + zetaEps) then Real.pi * 2.6 * 2.6
  else if 1.6 < nu ∧ nu < 4.4 then Real.pi * 2.99 * 2.99
  else if -3 < nu ∧ nu < 8 then Real.pi * 3.15 * 3.15
  else if -70 < nu ∧ nu < 40 then Real.pi * 3.35 * 3.35
  else if -600 < nu ∧ nu < 80 then Real.pi * 3.5 * 3.5
  else (10:ℝ)^(16:ℕ)

/-- Embedding of `crandall_g` from crandall.c (identical in both
revisions): `upperGamma(nu/2, w) / w^(nu/2)` with `w = pi prefactor^2 z^2`,
with a limit value below `ldexp(1,-62)` and a two-term asymptotic
expansion above `zArgBound`.  The C return type is `double complex`; every
operand is real, so the imaginary part is identically zero and the value
is embedded as the coercion of a real. -/
def crandall_g (dim : ℕ) (nu : ℝ) (z : ℕ → ℝ) (prefactor : ℝ) (zArgBound : ℝ) : ℂ :=
  ((if crandallArg dim z prefactor < (2:ℝ)^(-62 : ℤ) then -2 / nu
    else if zArgBound < crandallArg dim z prefactor then
      Real.exp (-crandallArg dim z prefactor) * (-2 + 2 * crandallArg dim z prefactor + nu) /
        (2 * crandallArg dim z prefactor * crandallArg dim z prefactor)
    else egf_ugamma (nu / 2) (crandallArg dim z prefactor) /
      Real.rpow (crandallArg dim z prefactor) (nu / 2) : ℝ) : ℂ)

/-- Embedding of `crandall_gReg` from src/src/crandall.c (the newer
revision, used by the zeta engine): `-Gamma(nu/2) * gammaStar(nu/2, w)`.
As with `crandall_g`, the value is real and embedded as such. -/
def crandall_gReg (dim : ℕ) (nu : ℝ) (z : ℕ → ℝ) (prefactor : ℝ) : ℂ :=
  ((-Real.Gamma (nu / 2) * egf_gammaStar (nu / 2) (crandallArg dim z prefactor) : ℝ) : ℂ)

namespace CRev

/-- The 10 hard-coded Taylor coefficients of
`crandall_gReg_nuequalsdimplus2k` (src/C/src/crandall.c); the first is
minus Euler's constant as the source writes it. -/
def gRegTaylor (n : ℕ) : ℝ :=
  [-0.57721566490153286555, 1, -0.25, 0.05555555555555555,
   -0.010416666666666666, 0.0016666666666666668, -0.0002314814814814815,
   0.00002834467120181406, -3.1001984126984127e-6,
   3.0619243582206544e-7].getD n 0

/-- Embedding of `crandall_gReg_nuequalsdimplus2k` from
src/C/src/crandall.c: the dedicated expansion of the regularized zero
summand when `s = -2k`, followed by the subtraction of
`arg^k * log(lambda^2)`.  All operands are real, so the C
`double complex` value is embedded as a real. -/
def crandall_gReg_nuequalsdimplus2k (s arg k lambda : ℝ) : ℝ :=
  (if s = 0 ∧ arg < 0.1 * 0.1 * Real.pi then
     ∑ i ∈ Finset.range 10, gRegTaylor i * Real.rpow arg i
   else if arg = 0 then 1 / k
   else Real.rpow arg k *
     (egf_ugamma (-k) arg + Real.rpow (-1) k / Real.Gamma (k + 1) * Real.log arg))
  - Real.rpow arg k * Real.log (lambda * lambda)

/-- Embedding of `crandall_gReg` from src/C/src/crandall.c (the older
revision): dispatch to the dedicated expansion when
`s < 1 && s == -2 * k` with `k = -nearbyint(s/2)`, otherwise
`-Gamma(s/2) * gammaStar(s/2, arg)`. -/
def crandall_gReg (dim : ℕ) (s : ℝ) (z : ℕ → ℝ) (prefactor : ℝ) : ℝ :=
  if s < 1 ∧ s = -2 * -nearbyint (s / 2) then
    crandall_gReg_nuequalsdimplus2k s (crandallArg dim z prefactor)
      (-nearbyint (s / 2)) prefactor
  else -Real.Gamma (s / 2) * egf_gammaStar (s / 2) (crandallArg dim z prefactor)

end CRev

/-! ### Multi-index helpers

`mult_abs` and `int_pow` are declared and used by the sources under
src/ but their defining file is not part of the snapshot. -/

/-- Modelled from the spec: `mult_abs(alpha) = sum alpha_i` (section 4.4 of
the spec); the defining source file is missing from the snapshot. -/
def mult_abs (dim : ℕ) (alpha : ℕ → ℕ) : ℕ := ∑ i ∈ Finset.range dim, alpha i

/-- Modelled from the spec: `int_pow(x, n) = x^n` (section 4.4 of the
spec); the defining source file is missing from the snapshot. -/
def int_pow {M : Type} [Monoid M] (x : M) (n : ℕ) : M := x ^ n

/-! ### zeta.c: projection to the elementary cell and the lattice sums -/

/-- The cell coordinates `vt = m_invt^T v` computed by `vectorProj`
(src/src/zeta.c). -/
def tCoord (dim : ℕ) (m_invt : ℕ → ℕ → ℝ) (v : ℕ → ℝ) (i : ℕ) : ℝ :=
  ∑ j ∈ Finset.range dim, m_invt j i * v j

/-- Embedding of `vectorProj` from src/src/zeta.c: compute
`vt = m_invt^T v`; if every component lies strictly between `-0.5` and
`0.5`, return `v` unchanged; otherwise replace each component by
`remainder(vt[i], 1)` and return `m * vt`. -/
def vectorProj (dim : ℕ) (m m_invt : ℕ → ℕ → ℝ) (v : ℕ → ℝ) : ℕ → ℝ :=
  if ∃ i ∈ Finset.range dim, tCoord dim m_invt v i ≤ -0.5 ∨ 0.5 ≤ tCoord dim m_invt v i then
    fun i => ∑ j ∈ Finset.range dim, m i j * fpRemainder (tCoord dim m_invt v j)
  else v

/-- The mixed-radix strides `totalCutoffs` of the cuboid iteration in
src/src/zeta.c. -/
def totalCutoffs (cutoffs : ℕ → ℕ) (k : ℕ) : ℕ :=
  ∏ j ∈ Finset.range k, (2 * cutoffs j + 1)

/-- The total number of summands of the cuboid iteration in
src/src/zeta.c. -/
def totalSummands (dim : ℕ) (cutoffs : ℕ → ℕ) : ℕ :=
  ∏ k ∈ Finset.range dim, (2 * cutoffs k + 1)

/-- The counting vector `zv` decoded from the linear index `n`
(src/src/zeta.c): `zv[k] = (n / totalCutoffs[k]) % (2 cutoffs[k] + 1) - cutoffs[k]`. -/
def zvec (cutoffs : ℕ → ℕ) (n k : ℕ) : ℤ :=
  ((n / totalCutoffs cutoffs k) % (2 * cutoffs k + 1) : ℕ) - (cutoffs k : ℤ)

/-- The lattice vector `lv = m * zv` (`matrix_intVector` in tools.c). -/
def latVec (dim : ℕ) (m : ℕ → ℕ → ℝ) (cutoffs : ℕ → ℕ) (n i : ℕ) : ℝ :=
  ∑ k ∈ Finset.range dim, m i k * (zvec cutoffs n k : ℝ)

/-- The phase `cexp(2 pi I t)`; the sources use it at negated arguments. -/
def ephase (t : ℝ) : ℂ := Complex.exp (2 * Real.pi * Complex.I * (t : ℂ))

/-- Embedding of `sum_real` from src/src/zeta.c: the real-space sum of
Crandall's formula over the cuboid.  Kahan compensation vanishes in exact
arithmetic, so the compensated loop computes the plain sum. -/
def sum_real (nu : ℝ) (dim : ℕ) (lambda : ℝ) (m : ℕ → ℕ → ℝ) (x y : ℕ → ℝ)
    (cutoffs : ℕ → ℕ) (zArgBound : ℝ) : ℂ :=
  ∑ n ∈ Finset.range (totalSummands dim cutoffs),
    ephase (-(dot dim (latVec dim m cutoffs n) y)) *
      crandall_g dim nu (fun i => latVec dim m cutoffs n i - x i) (1 / lambda) zArgBound

/-- Embedding of `sum_real_der` from src/src/zeta.c: as `sum_real` with
each summand multiplied by `(-2 pi I (z - x))^alpha` (`int_pow` factors
are skipped by the source when `alpha[i] = 0`, which leaves the product
unchanged). -/
def sum_real_der (nu : ℝ) (dim : ℕ) (lambda : ℝ) (m : ℕ → ℕ → ℝ) (x y : ℕ → ℝ)
    (cutoffs : ℕ → ℕ) (zArgBound : ℝ) (alpha : ℕ → ℕ) : ℂ :=
  ∑ n ∈ Finset.range (totalSummands dim cutoffs),
    ephase (-(dot dim (latVec dim m cutoffs n) y)) *
      (∏ i ∈ Finset.range dim,
        int_pow (-2 * Real.pi * Complex.I * (latVec dim m cutoffs n i - x i : ℝ)) (alpha i)) *
      crandall_g dim nu (fun i => latVec dim m cutoffs n i - x i) (1 / lambda) zArgBound

/-- Embedding of `sum_fourier` from src/src/zeta.c: the reciprocal-space
sum of Crandall's formula over the cuboid, skipping the zero index
`(totalSummands - 1) / 2`. -/
def sum_fourier (nu : ℝ) (dim : ℕ) (lambda : ℝ) (m_invt : ℕ → ℕ → ℝ) (x y : ℕ → ℝ)
    (cutoffs : ℕ → ℕ) (zArgBound : ℝ) : ℂ :=
  ∑ n ∈ (Finset.range (totalSummands dim cutoffs)).erase
      ((totalSummands dim cutoffs - 1) / 2),
    ephase (-(dot dim (fun i => latVec dim m_invt cutoffs n i + y i) x)) *
      crandall_g dim ((dim : ℝ) - nu) (fun i => latVec dim m_invt cutoffs n i + y i)
        lambda zArgBound


/-- Embedding of `sum_fourier_der` from src/src/zeta.c: as `sum_fourier`
with the summand kernel `crandall_g_der` passed as the parameter `gder`
(its defining source file is missing from the snapshot; every theorem
below holds for all instantiations of `gder`). -/
def sum_fourier_der (gder : ℕ → ℝ → (ℕ → ℝ) → ℝ → ℝ → (ℕ → ℕ) → ℂ)
    (nu : ℝ) (dim : ℕ) (lambda : ℝ) (m_invt : ℕ → ℕ → ℝ) (x y : ℕ → ℝ)
    (cutoffs : ℕ → ℕ) (zArgBound : ℝ) (alpha : ℕ → ℕ) : ℂ :=
  ∑ n ∈ (Finset.range (totalSummands dim cutoffs)).erase
      ((totalSummands dim cutoffs - 1) / 2),
    ephase (-(dot dim (fun i => latVec dim m_invt cutoffs n i + y i) x)) *
      gder dim ((dim : ℝ) - nu) (fun i => latVec dim m_invt cutoffs n i + y i)
        lambda zArgBound alpha

/-! ### zeta.c: the Ewald dispatcher `epsteinZetaInternal` -/

/-- The volume `fabs(det)` computed by src/src/zeta.c as the absolute
product of the diagonal of the LU-overwritten copy of the generator. -/
def epsteinVol (dim : ℕ) (m : ℕ → ℕ → ℝ) : ℝ :=
  |∏ k ∈ Finset.range dim, (elimStateR dim m).1 k k|

/-- The isotropic scale `ms = pow(vol, -1/dim)` of src/src/zeta.c. -/
def epsteinMs (dim : ℕ) (m : ℕ → ℕ → ℝ) : ℝ :=
  Real.rpow (epsteinVol dim m) (-1 / (dim : ℝ))

/-- The rescaled generator `m_real = ms * m` of src/src/zeta.c. -/
def epsteinMReal (dim : ℕ) (m : ℕ → ℕ → ℝ) : ℕ → ℕ → ℝ :=
  fun i j => m i j * epsteinMs dim m

/-- The rescaled dual generator `m_fourier = (m^{-1})^T / ms` of
src/src/zeta.c (inverse by `invert`, transposed in place, then scaled). -/
def epsteinMFourier (dim : ℕ) (m : ℕ → ℕ → ℝ) : ℕ → ℕ → ℝ :=
  fun i j => invertR dim m j i / epsteinMs dim m

/-- The rescaled shift `x_t1 = ms * x` of src/src/zeta.c. -/
def epsteinX1 (dim : ℕ) (m : ℕ → ℕ → ℝ) (x : ℕ → ℝ) : ℕ → ℝ :=
  fun i => x i * epsteinMs dim m

/-- The rescaled shift `y_t1 = y / ms` of src/src/zeta.c. -/
def epsteinY1 (dim : ℕ) (m : ℕ → ℕ → ℝ) (y : ℕ → ℝ) : ℕ → ℝ :=
  fun i => y i / epsteinMs dim m

/-- The projected shift `x_t2 = vectorProj(m_real, m_fourier, x_t1)` of
src/src/zeta.c. -/
def epsteinX2 (dim : ℕ) (m : ℕ → ℕ → ℝ) (x : ℕ → ℝ) : ℕ → ℝ :=
  vectorProj dim (epsteinMReal dim m) (epsteinMFourier dim m) (epsteinX1 dim m x)

/-- The projected shift `y_t2 = vectorProj(m_fourier, m_real, y_t1)` of
src/src/zeta.c. -/
def epsteinY2 (dim : ℕ) (m : ℕ → ℕ → ℝ) (y : ℕ → ℝ) : ℕ → ℝ :=
  vectorProj dim (epsteinMFourier dim m) (epsteinMReal dim m) (epsteinY1 dim m y)

/-- The diagonality test of src/src/zeta.c on the original generator. -/
def epsteinIsDiagonal (dim : ℕ) (m : ℕ → ℕ → ℝ) : Prop :=
  ∀ i ∈ Finset.range dim, ∀ j ∈ Finset.range dim, i = j ∨ m i j = 0

/-- The real-space cutoffs of src/src/zeta.c (`G_BOUND + 0.5` over the
diagonal entries for diagonal generators, else via the infinity norm of
the dual generator). -/
def epsteinCutoffsReal (dim : ℕ) (m : ℕ → ℕ → ℝ) : ℕ → ℕ := fun k =>
  if epsteinIsDiagonal dim m then
    (⌊(3.2 + 0.5) / |epsteinMReal dim m k k|⌋).toNat
  else (⌊(3.2 + 0.5) * inf_norm dim (epsteinMFourier dim m)⌋).toNat

/-- The reciprocal-space cutoffs of src/src/zeta.c. -/
def epsteinCutoffsFourier (dim : ℕ) (m : ℕ → ℕ → ℝ) : ℕ → ℕ := fun k =>
  if epsteinIsDiagonal dim m then
    (⌊(3.2 + 0.5) * |epsteinMReal dim m k k|⌋).toNat
  else (⌊(3.2 + 0.5) * inf_norm dim (epsteinMReal dim m)⌋).toNat

/-- The sum-assembly part of `epsteinZetaInternal` (src/src/zeta.c): the
complex value computed by the branch-on-variant chain and combined as
`xfactor * (lambda^2/pi)^(-nu/2) / Gamma(nu/2) * (s1 + lambda^dim * s2)`.
Variants other than 0, 1, 2 leave both partial sums at `0`. -/
def epsteinMainValue (gder : ℕ → ℝ → (ℕ → ℝ) → ℝ → ℝ → (ℕ → ℕ) → ℂ)
    (nu : ℝ) (dim : ℕ) (m : ℕ → ℕ → ℝ) (x y : ℕ → ℝ) (lambda : ℝ)
    (variant : ℕ) (alpha : ℕ → ℕ) : ℂ :=
  let ms := epsteinMs dim m
  let mr := epsteinMReal dim m
  let mf := epsteinMFourier dim m
  let x1 := epsteinX1 dim m x
  let y1 := epsteinY1 dim m y
  let x2 := epsteinX2 dim m x
  let y2 := epsteinY2 dim m y
  let cutR := epsteinCutoffsReal dim m
  let cutF := epsteinCutoffsFourier dim m
  let zb := assignzArgBound nu
  let zbR := assignzArgBound ((dim : ℝ) - nu)
  let xf0 := ephase (-(dot dim (fun i => x1 i - x2 i) y1))
  let t : ℂ × ℂ × ℂ :=
    if variant = 0 then
      (sum_real nu dim lambda mr x2 y2 cutR zb,
       sum_fourier nu dim lambda mf x2 y2 cutF zbR +
         crandall_g dim ((dim : ℝ) - nu) y2 lambda zb * ephase (-(dot dim x2 y2)),
       xf0)
    else if variant = 1 then
      let rot := ephase (dot dim x1 y1)
      let s2a := sum_fourier nu dim lambda mf x1 y2 cutF zbR
      let s2b :=
        if ¬ equals dim y1 y2 then
          s2a + (crandall_g dim ((dim : ℝ) - nu) y2 lambda zbR * ephase (-(dot dim x1 y2)) -
                 crandall_g dim ((dim : ℝ) - nu) y1 lambda zbR * ephase (-(dot dim x1 y1)))
        else s2a
      (sum_real nu dim lambda mr x2 y2 cutR zb * rot * xf0,
       s2b * rot + crandall_gReg dim ((dim : ℝ) - nu) y1 lambda,
       1)
    else if variant = 2 then
      let rot := ephase (dot dim x1 y1)
      let nc :=
        if equals dim y1 y2 then gder dim ((dim : ℝ) - nu) y1 lambda zbR alpha
        else gder dim ((dim : ℝ) - nu) y2 lambda zbR alpha *
          ephase (-(dot dim y2 x1)) * rot
      (sum_real_der nu dim lambda mr x2 y2 cutR zb alpha * rot * xf0,
       ((int_pow lambda (mult_abs dim alpha) : ℝ) : ℂ) *
         (sum_fourier_der gder nu dim lambda mf x1 y2 cutF zbR alpha * rot + nc),
       ((1 / int_pow ms (mult_abs dim alpha) : ℝ) : ℂ))
    else (0, 0, xf0)
  t.2.2 * ((Real.rpow (lambda * lambda / Real.pi) (-nu / 2) / Real.Gamma (nu / 2) : ℝ) : ℂ) *
    (t.1 + ((Real.rpow lambda (dim : ℝ) : ℝ) : ℂ) * t.2.1)

/-- The special-case dispatch of `epsteinZetaInternal` (src/src/zeta.c):
the analytic value at non-positive even `nu` for the plain and
regularized variants, the NaN assignment at the pole of the plain
variant, and otherwise the assembled sums. -/
def epsteinCore (gder : ℕ → ℝ → (ℕ → ℝ) → ℝ → ℝ → (ℕ → ℕ) → ℂ)
    (nu : ℝ) (dim : ℕ) (m : ℕ → ℕ → ℝ) (x y : ℕ → ℝ) (lambda : ℝ)
    (variant : ℕ) (alpha : ℕ → ℕ) : CD :=
  if nu < 1 ∧ |nu / 2 - nearbyint (nu / 2)| < zetaEps ∧
      (variant = 0 ∨ variant = 1) then
    if dot dim (epsteinX2 dim m x) (epsteinX2 dim m x) = 0 ∧ nu = 0 then
      fromC (-1 * ephase (-(dot dim (epsteinX1 dim m x) (epsteinY2 dim m y))))
    else fromC 0
  else if |nu - dim| < zetaEps ∧
      dot dim (epsteinY2 dim m y) (epsteinY2 dim m y) < epsZeroY ∧
      variant = 0 then
    cNaN
  else fromC (epsteinMainValue gder nu dim m x y lambda variant alpha)

/-- The integer `k = fmax(0, nearbyint((nu - dim) / 2))` of the final
correction step of src/src/zeta.c. -/
def epsteinCorrK (nu : ℝ) (dim : ℕ) : ℝ :=
  max 0 (nearbyint ((nu - dim) / 2))

/-- `epsteinZetaInternal` without its two recursive zeroth-derivative
early returns: the core value, rescaled componentwise by `pow(ms, nu)`,
followed by the `nu = dim + 2k` matrix-scaling correction applied only in
the regularized variant. -/
def epsteinFull (gder : ℕ → ℝ → (ℕ → ℝ) → ℝ → ℝ → (ℕ → ℕ) → ℂ)
    (nu : ℝ) (dim : ℕ) (m : ℕ → ℕ → ℝ) (x y : ℕ → ℝ) (lambda : ℝ)
    (variant : ℕ) (alpha : ℕ → ℕ) : CD :=
  let res1 := scaleCD (epsteinCore gder nu dim m x y lambda variant alpha)
    (Real.rpow (epsteinMs dim m) nu)
  let k := epsteinCorrK nu dim
  if variant = 1 ∧ nu = dim + 2 * k then
    if k = 0 then
      addReCD res1 (Real.rpow Real.pi ((dim : ℝ) / 2) / Real.Gamma ((dim : ℝ) / 2) *
        Real.log (epsteinMs dim m * epsteinMs dim m) / epsteinVol dim m)
    else
      subReCD res1 (Real.rpow Real.pi (2 * k + (dim : ℝ) / 2) /
        Real.Gamma (k + (dim : ℝ) / 2) * Real.rpow (-1) (k + 1) / Real.Gamma (k + 1) *
        Real.rpow (dot dim y y) k *
        Real.log (epsteinMs dim m * epsteinMs dim m) / epsteinVol dim m)
  else res1

/-- Embedding of `epsteinZetaInternal` from src/src/zeta.c.  The two
zeroth-derivative early returns recurse with variants 0 and 1 and
`lambda = 1`; those recursive calls cannot hit the early returns again,
so they are unfolded to `epsteinFull`. -/
def epsteinZetaInternal (gder : ℕ → ℝ → (ℕ → ℝ) → ℝ → ℝ → (ℕ → ℕ) → ℂ)
    (nu : ℝ) (dim : ℕ) (m : ℕ → ℕ → ℝ) (x y : ℕ → ℝ) (lambda : ℝ)
    (variant : ℕ) (alpha : ℕ → ℕ) : CD :=
  if variant = 2 ∧ mult_abs dim alpha = 0 then
    cmulCD (ephase (dot dim x y)) (epsteinFull gder nu dim m x y 1 0 alpha)
  else if variant = 3 ∧ mult_abs dim alpha = 0 then
    epsteinFull gder nu dim m x y 1 1 alpha
  else epsteinFull gder nu dim m x y lambda variant alpha

/-- Embedding of `epsteinZeta` from src/src/epsteinZeta.c: the plain
variant, `lambda = 1`. -/
def epsteinZeta (gder : ℕ → ℝ → (ℕ → ℝ) → ℝ → ℝ → (ℕ → ℕ) → ℂ)
    (nu : ℝ) (dim : ℕ) (a : ℕ → ℕ → ℝ) (x y : ℕ → ℝ) : CD :=
  epsteinZetaInternal gder nu dim a x y 1 0 (fun _ => 0)

/-- Embedding of `epsteinZetaReg` from src/src/epsteinZeta.c: the
regularized variant, `lambda = 1`. -/
def epsteinZetaReg (gder : ℕ → ℝ → (ℕ → ℝ) → ℝ → ℝ → (ℕ → ℕ) → ℂ)
    (nu : ℝ) (dim : ℕ) (a : ℕ → ℕ → ℝ) (x y : ℕ → ℝ) : CD :=
  epsteinZetaInternal gder nu dim a x y 1 1 (fun _ => 0)

/-- Embedding of `setZetaDer` from src/src/epsteinZeta.c: variant 2. -/
def setZetaDer (gder : ℕ → ℝ → (ℕ → ℝ) → ℝ → ℝ → (ℕ → ℕ) → ℂ)
    (nu : ℝ) (dim : ℕ) (a : ℕ → ℕ → ℝ) (x y : ℕ → ℝ) (alpha : ℕ → ℕ) : CD :=
  epsteinZetaInternal gder nu dim a x y 1 2 alpha

/-- Embedding of `epsteinZetaRegDer` from src/src/epsteinZeta.c:
variant 3. -/
def epsteinZetaRegDer (gder : ℕ → ℝ → (ℕ → ℝ) → ℝ → ℝ → (ℕ → ℕ) → ℂ)
    (nu : ℝ) (dim : ℕ) (a : ℕ → ℕ → ℝ) (x y : ℕ → ℝ) (alpha : ℕ → ℕ) : CD :=
  epsteinZetaInternal gder nu dim a x y 1 3 alpha

/-! ## Helper lemmas about the engine -/

theorem scaleCD_fromC_zero (c : ℝ) : scaleCD (fromC 0) c = fromC 0 := by
  rw [scaleCD_fromC, zero_mul]

/-- Variants other than 0, 1, 2 leave both partial sums of the assembly
at zero, so the assembled value is zero. -/
theorem epsteinMainValue_of_variant_ge_three
    (gder : ℕ → ℝ → (ℕ → ℝ) → ℝ → ℝ → (ℕ → ℕ) → ℂ)
    (nu : ℝ) (dim : ℕ) (m : ℕ → ℕ → ℝ) (x y : ℕ → ℝ) (lambda : ℝ)
    (variant : ℕ) (alpha : ℕ → ℕ) (h0 : variant ≠ 0) (h1 : variant ≠ 1)
    (h2 : variant ≠ 2) :
    epsteinMainValue gder nu dim m x y lambda variant alpha = 0 := by
  rw [epsteinMainValue]
  simp only [if_neg h0, if_neg h1, if_neg h2]
  ring

/-- For variants 2 and 3 the two special-case guards of the core are
inactive, and for variants other than 0, 1, 2 the core value is zero. -/
theorem epsteinCore_variant3 (gder : ℕ → ℝ → (ℕ → ℝ) → ℝ → ℝ → (ℕ → ℕ) → ℂ)
    (nu : ℝ) (dim : ℕ) (m : ℕ → ℕ → ℝ) (x y : ℕ → ℝ) (lambda : ℝ)
    (alpha : ℕ → ℕ) :
    epsteinCore gder nu dim m x y lambda 3 alpha = fromC 0 := by
  rw [epsteinCore,
    if_neg (show ¬(nu < 1 ∧ |nu / 2 - nearbyint (nu / 2)| < zetaEps ∧
        ((3:ℕ) = 0 ∨ (3:ℕ) = 1)) from fun hcon => by omega),
    if_neg (show ¬(|nu - dim| < zetaEps ∧
        dot dim (epsteinY2 dim m y) (epsteinY2 dim m y) < epsZeroY ∧ (3:ℕ) = 0)
      from fun hcon => by omega),
    epsteinMainValue_of_variant_ge_three gder nu dim m x y lambda 3 alpha
      (by omega) (by omega) (by omega)]

/-- C2: for every multi-index with `|alpha| ≥ 1`, `epsteinZetaRegDer`
(variant 3) returns exactly `0`: the sum-assembly chain has no branch for
variant 3, so both partial sums stay `0` (this holds even without the
claim's side condition on the special-case guards, which variant 3 never
triggers). -/
theorem epsteinZetaRegDer_eq_zero (gder : ℕ → ℝ → (ℕ → ℝ) → ℝ → ℝ → (ℕ → ℕ) → ℂ)
    (nu : ℝ) (dim : ℕ) (m : ℕ → ℕ → ℝ) (x y : ℕ → ℝ) (alpha : ℕ → ℕ)
    (h : 1 ≤ mult_abs dim alpha) :
    epsteinZetaRegDer gder nu dim m x y alpha = fromC 0 := by
  rw [epsteinZetaRegDer, epsteinZetaInternal,
    if_neg (show ¬((3:ℕ) = 2 ∧ mult_abs dim alpha = 0) from fun hcon => by omega),
    if_neg (show ¬((3:ℕ) = 3 ∧ mult_abs dim alpha = 0) from fun hcon => by omega),
    epsteinFull,
    if_neg (show ¬((3:ℕ) = 1 ∧ nu = dim + 2 * epsteinCorrK nu dim)
      from fun hcon => by omega),
    epsteinCore_variant3, scaleCD_fromC_zero]

/-- C2 (witness): the zero result at `nu = 7`, `dim = 1`, the identity
generator, zero shifts and `alpha = (1)`. -/
theorem epsteinZetaRegDer_eq_zero_witness :
    1 ≤ mult_abs 1 (fun _ => 1) ∧
      epsteinZetaRegDer (fun _ _ _ _ _ _ => 0) 7 1 (fun _ _ => 1)
        (fun _ => 0) (fun _ => 0) (fun _ => 1) = fromC 0 := by
  have h1 : 1 ≤ mult_abs 1 (fun _ => 1) := by
    rw [mult_abs]
    simp
  exact ⟨h1, epsteinZetaRegDer_eq_zero (fun _ _ _ _ _ _ => 0) 7 1 (fun _ _ => 1)
    (fun _ => 0) (fun _ => 0) (fun _ => 1) h1⟩

/-- The variant-0 assembled value does not depend on the multi-index. -/
theorem epsteinMainValue_zero_alpha (gder : ℕ → ℝ → (ℕ → ℝ) → ℝ → ℝ → (ℕ → ℕ) → ℂ)
    (nu : ℝ) (dim : ℕ) (m : ℕ → ℕ → ℝ) (x y : ℕ → ℝ) (lambda : ℝ)
    (a1 a2 : ℕ → ℕ) :
    epsteinMainValue gder nu dim m x y lambda 0 a1 =
      epsteinMainValue gder nu dim m x y lambda 0 a2 := by
  simp only [epsteinMainValue, if_pos (rfl : (0:ℕ) = 0), if_true]

/-- The variant-0 value of the engine body does not depend on the
multi-index. -/
theorem epsteinFull_zero_alpha (gder : ℕ → ℝ → (ℕ → ℝ) → ℝ → ℝ → (ℕ → ℕ) → ℂ)
    (nu : ℝ) (dim : ℕ) (m : ℕ → ℕ → ℝ) (x y : ℕ → ℝ) (lambda : ℝ)
    (a1 a2 : ℕ → ℕ) :
    epsteinFull gder nu dim m x y lambda 0 a1 =
      epsteinFull gder nu dim m x y lambda 0 a2 := by
  rw [epsteinFull, epsteinFull, epsteinCore, epsteinCore,
    epsteinMainValue_zero_alpha gder nu dim m x y lambda a1 a2]

/-- C9: for `|alpha| = 0`, `setZetaDer` equals
`exp(2 pi I x . y) * epsteinZeta` (the plain variant with the same
arguments). -/
theorem setZetaDer_zeroth (gder : ℕ → ℝ → (ℕ → ℝ) → ℝ → ℝ → (ℕ → ℕ) → ℂ)
    (nu : ℝ) (dim : ℕ) (m : ℕ → ℕ → ℝ) (x y : ℕ → ℝ) (alpha : ℕ → ℕ)
    (h : mult_abs dim alpha = 0) :
    setZetaDer gder nu dim m x y alpha =
      cmulCD (ephase (dot dim x y)) (epsteinZeta gder nu dim m x y) := by
  rw [setZetaDer, epsteinZetaInternal, if_pos ⟨rfl, h⟩, epsteinZeta, epsteinZetaInternal,
    if_neg (show ¬((0:ℕ) = 2 ∧ mult_abs dim (fun _ => 0) = 0) from fun hc => by omega),
    if_neg (show ¬((0:ℕ) = 3 ∧ mult_abs dim (fun _ => 0) = 0) from fun hc => by omega),
    epsteinFull_zero_alpha gder nu dim m x y 1 alpha (fun _ => 0)]

/-- C9 (witness): the identity at `nu = 5`, `dim = 1`, the identity
generator, zero shifts and the zero multi-index. -/
theorem setZetaDer_zeroth_witness :
    mult_abs 1 (fun _ => 0) = 0 ∧
      setZetaDer (fun _ _ _ _ _ _ => 0) 5 1 (fun _ _ => 1) (fun _ => 0) (fun _ => 0)
          (fun _ => 0) =
        cmulCD (ephase (dot 1 (fun _ => 0) (fun _ => 0)))
          (epsteinZeta (fun _ _ _ _ _ _ => 0) 5 1 (fun _ _ => 1)
            (fun _ => 0) (fun _ => 0)) := by
  have h : mult_abs 1 (fun _ => 0) = 0 := by rw [mult_abs]; simp
  exact ⟨h, setZetaDer_zeroth (fun _ _ _ _ _ _ => 0) 5 1 (fun _ _ => 1)
    (fun _ => 0) (fun _ => 0) (fun _ => 0) h⟩

theorem epsteinCorrK_nonneg (nu : ℝ) (dim : ℕ) : 0 ≤ epsteinCorrK nu dim :=
  le_max_left _ _

theorem epsteinCorrK_eq_nat (nu : ℝ) (dim : ℕ) (k : ℕ) (h : nu = dim + 2 * k) :
    epsteinCorrK nu dim = (k : ℝ) := by
  have hhalf : (nu - dim) / 2 = ((k : ℤ) : ℝ) := by rw [h]; push_cast; ring
  rw [epsteinCorrK, nearbyint, hhalf, roundEvenZ_intCast]
  have : ((k : ℤ) : ℝ) = (k : ℝ) := by push_cast; ring
  rw [this]
  exact max_eq_right (Nat.cast_nonneg k)

theorem epsteinCorrK_exists_nat (nu : ℝ) (dim : ℕ) :
    ∃ k : ℕ, epsteinCorrK nu dim = (k : ℝ) := by
  refine ⟨(max 0 (roundEvenZ ((nu - dim) / 2))).toNat, ?_⟩
  rw [epsteinCorrK, nearbyint]
  rw [show (((max 0 (roundEvenZ ((nu - dim) / 2))).toNat : ℕ) : ℝ) =
      ((max 0 (roundEvenZ ((nu - dim) / 2)) : ℤ) : ℝ) from by
    exact_mod_cast congrArg (fun t : ℤ => (t : ℝ))
      (Int.toNat_of_nonneg (le_max_left _ _))]
  push_cast
  rfl

/-- C8: exactly the regularized variant (variant 1) receives, after the
`mu^nu` rescaling, the `log(mu^2)` correction: adding
`pi^(d/2)/Gamma(d/2) * log(ms^2)/vol` when `nu = dim` (`k = 0`) and
subtracting
`pi^(2k+d/2)/Gamma(k+d/2) * (-1)^(k+1)/k! * |y|^(2k) * log(ms^2)/vol`
when `nu = dim + 2k` with `k ≥ 1`, `|y|^2` being the unprojected input;
when `nu` is not of the form `dim + 2k`, and for every other variant, the
rescaled value is returned unchanged. -/
theorem epsteinInternal_log_correction
    (gder : ℕ → ℝ → (ℕ → ℝ) → ℝ → ℝ → (ℕ → ℕ) → ℂ)
    (nu : ℝ) (dim : ℕ) (m : ℕ → ℕ → ℝ) (x y : ℕ → ℝ) (lambda : ℝ)
    (alpha : ℕ → ℕ) :
    ((nu = dim) →
      epsteinZetaInternal gder nu dim m x y lambda 1 alpha =
        addReCD (scaleCD (epsteinCore gder nu dim m x y lambda 1 alpha)
            (Real.rpow (epsteinMs dim m) nu))
          (Real.rpow Real.pi ((dim : ℝ) / 2) / Real.Gamma ((dim : ℝ) / 2) *
            Real.log (epsteinMs dim m * epsteinMs dim m) / epsteinVol dim m)) ∧
    (∀ k : ℕ, 1 ≤ k → nu = dim + 2 * k →
      epsteinZetaInternal gder nu dim m x y lambda 1 alpha =
        subReCD (scaleCD (epsteinCore gder nu dim m x y lambda 1 alpha)
            (Real.rpow (epsteinMs dim m) nu))
          (Real.rpow Real.pi (2 * k + (dim : ℝ) / 2) /
            Real.Gamma ((k : ℝ) + (dim : ℝ) / 2) * (-1 : ℝ) ^ (k + 1) /
            (k.factorial : ℝ) * dot dim y y ^ k *
            Real.log (epsteinMs dim m * epsteinMs dim m) / epsteinVol dim m)) ∧
    ((∀ k : ℕ, nu ≠ dim + 2 * k) →
      epsteinZetaInternal gder nu dim m x y lambda 1 alpha =
        scaleCD (epsteinCore gder nu dim m x y lambda 1 alpha)
          (Real.rpow (epsteinMs dim m) nu)) ∧
    (∀ variant : ℕ, variant ≠ 1 → ¬(variant = 2 ∧ mult_abs dim alpha = 0) →
      ¬(variant = 3 ∧ mult_abs dim alpha = 0) →
      epsteinZetaInternal gder nu dim m x y lambda variant alpha =
        scaleCD (epsteinCore gder nu dim m x y lambda variant alpha)
          (Real.rpow (epsteinMs dim m) nu)) := by
  have hv12 : ¬((1:ℕ) = 2 ∧ mult_abs dim alpha = 0) := fun hc => by omega
  have hv13 : ¬((1:ℕ) = 3 ∧ mult_abs dim alpha = 0) := fun hc => by omega
  refine ⟨?_, ?_, ?_, ?_⟩
  · intro h0
    have hk : epsteinCorrK nu dim = ((0:ℕ) : ℝ) :=
      epsteinCorrK_eq_nat nu dim 0 (by rw [h0]; push_cast; ring)
    rw [epsteinZetaInternal, if_neg hv12, if_neg hv13, epsteinFull,
      if_pos ⟨rfl, by rw [hk, h0]; push_cast; ring⟩, if_pos (by rw [hk]; norm_num)]
  · intro k hk1 hkeq
    have hk : epsteinCorrK nu dim = (k : ℝ) := epsteinCorrK_eq_nat nu dim k hkeq
    have hkne : epsteinCorrK nu dim ≠ 0 := by
      rw [hk]
      exact_mod_cast Nat.pos_iff_ne_zero.mp (by omega)
    rw [epsteinZetaInternal, if_neg hv12, if_neg hv13, epsteinFull,
      if_pos ⟨rfl, by rw [hk, hkeq]⟩, if_neg hkne, hk]
    have hm1 : Real.rpow (-1 : ℝ) ((k : ℝ) + 1) = (-1 : ℝ) ^ (k + 1) := by
      have hc : ((k : ℝ) + 1) = ((k + 1 : ℕ) : ℝ) := by push_cast; ring
      rw [hc]
      exact Real.rpow_natCast _ (k + 1)
    have hfac : Real.Gamma ((k : ℝ) + 1) = (k.factorial : ℝ) := by
      exact_mod_cast Real.Gamma_nat_eq_factorial k
    have hyp : Real.rpow (dot dim y y) (k : ℝ) = dot dim y y ^ k :=
      Real.rpow_natCast _ k
    rw [hm1, hfac, hyp]
  · intro hnk
    rw [epsteinZetaInternal, if_neg hv12, if_neg hv13, epsteinFull, if_neg]
    rintro ⟨-, heq⟩
    obtain ⟨k, hkn⟩ := epsteinCorrK_exists_nat nu dim
    exact hnk k (by rw [heq, hkn])
  · intro variant hv1 hv2 hv3
    rw [epsteinZetaInternal, if_neg hv2, if_neg hv3, epsteinFull,
      if_neg (fun hc => hv1 hc.1)]

/-- C8 (witness): the `k = 0` correction at `nu = 1`, `dim = 1`. -/
theorem epsteinInternal_log_correction_witness :
    epsteinZetaInternal (fun _ _ _ _ _ _ => 0) 1 1 (fun _ _ => 1)
        (fun _ => 0) (fun _ => 0) 1 1 (fun _ => 0) =
      addReCD (scaleCD (epsteinCore (fun _ _ _ _ _ _ => 0) 1 1 (fun _ _ => 1)
          (fun _ => 0) (fun _ => 0) 1 1 (fun _ => 0))
          (Real.rpow (epsteinMs 1 (fun _ _ => 1)) 1))
        (Real.rpow Real.pi (((1:ℕ) : ℝ) / 2) / Real.Gamma (((1:ℕ) : ℝ) / 2) *
          Real.log (epsteinMs 1 (fun _ _ => 1) * epsteinMs 1 (fun _ _ => 1)) /
          epsteinVol 1 (fun _ _ => 1)) :=
  (epsteinInternal_log_correction (fun _ _ _ _ _ _ => 0) 1 1 (fun _ _ => 1)
    (fun _ => 0) (fun _ => 0) 1 (fun _ => 0)).1 (by norm_num)

theorem epsZeroY_pos : 0 < epsZeroY := by rw [epsZeroY]; positivity

theorem dot_self_eq_zero_iff (dim : ℕ) (v : ℕ → ℝ) :
    dot dim v v = 0 ↔ ∀ i < dim, v i = 0 := by
  rw [dot]
  rw [Finset.sum_eq_zero_iff_of_nonneg (fun i _ => mul_self_nonneg (v i))]
  constructor
  · intro h i hi
    exact mul_self_eq_zero.mp (h i (Finset.mem_range.mpr hi))
  · intro h i hi
    rw [h i (Finset.mem_range.mp hi), mul_zero]

theorem tCoord_zero_vec (dim : ℕ) (m_invt : ℕ → ℕ → ℝ) (i : ℕ) :
    tCoord dim m_invt (fun _ => 0) i = 0 := by
  simp [tCoord]

theorem vectorProj_zero_vec (dim : ℕ) (m m_invt : ℕ → ℕ → ℝ) :
    vectorProj dim m m_invt (fun _ => 0) = fun _ => (0:ℝ) := by
  rw [vectorProj, if_neg]
  rintro ⟨i, -, hc⟩
  rw [tCoord_zero_vec] at hc
  rcases hc with hc | hc <;> norm_num at hc

theorem epsteinY1_zero_vec (dim : ℕ) (m : ℕ → ℕ → ℝ) :
    epsteinY1 dim m (fun _ => 0) = fun _ => (0:ℝ) := by
  funext i
  rw [epsteinY1, zero_div]

theorem epsteinY2_zero_vec (dim : ℕ) (m : ℕ → ℕ → ℝ) :
    epsteinY2 dim m (fun _ => 0) = fun _ => (0:ℝ) := by
  rw [epsteinY2, epsteinY1_zero_vec, vectorProj_zero_vec]

/-- C3: for the plain and regularized variants, whenever `nu ≤ 0` lies
within `2^-30` of an even integer, the engine returns
`-exp(-2 pi I x_t1 . y_t2)` when the projected shift `x_t2` is exactly
zero and `nu = 0`, and returns exactly `0` in every other such case. -/
theorem epsteinInternal_nonpositive_even
    (gder : ℕ → ℝ → (ℕ → ℝ) → ℝ → ℝ → (ℕ → ℕ) → ℂ)
    (nu : ℝ) (dim : ℕ) (m : ℕ → ℕ → ℝ) (x y : ℕ → ℝ) (lambda : ℝ)
    (variant : ℕ) (alpha : ℕ → ℕ) (hdim : 1 ≤ dim)
    (hvar : variant = 0 ∨ variant = 1) (hnu : nu ≤ 0)
    (hk : ∃ k : ℤ, |nu - 2 * k| < zetaEps) :
    epsteinZetaInternal gder nu dim m x y lambda variant alpha =
      if (∀ i < dim, epsteinX2 dim m x i = 0) ∧ nu = 0 then
        fromC (-1 * ephase (-(dot dim (epsteinX1 dim m x) (epsteinY2 dim m y))))
      else fromC 0 := by
  have hv2 : ¬(variant = 2 ∧ mult_abs dim alpha = 0) := by
    rintro ⟨hc, -⟩
    rcases hvar with h | h <;> omega
  have hv3 : ¬(variant = 3 ∧ mult_abs dim alpha = 0) := by
    rintro ⟨hc, -⟩
    rcases hvar with h | h <;> omega
  have hguard1 : nu < 1 ∧ |nu / 2 - nearbyint (nu / 2)| < zetaEps ∧
      (variant = 0 ∨ variant = 1) := by
    obtain ⟨k, hkd⟩ := hk
    have habs := abs_lt.mp hkd
    have hze : zetaEps ≤ 1/4 := zetaEps_le
    have hround : roundEvenZ (nu / 2) = k := by
      apply roundEvenZ_eq_of_abs_lt
      rw [abs_lt]
      constructor <;> [linarith [habs.1]; linarith [habs.2]]
    refine ⟨by linarith, ?_, hvar⟩
    rw [nearbyint, hround, abs_lt]
    constructor <;> [linarith [habs.1, zetaEps_pos]; linarith [habs.2, zetaEps_pos]]
  have hcorrneg : ¬(variant = 1 ∧ nu = dim + 2 * epsteinCorrK nu dim) := by
    rintro ⟨-, heq⟩
    have h1 : (1:ℝ) ≤ (dim:ℝ) := by exact_mod_cast hdim
    have h2 : 0 ≤ epsteinCorrK nu dim := epsteinCorrK_nonneg nu dim
    linarith
  rw [epsteinZetaInternal, if_neg hv2, if_neg hv3, epsteinFull, if_neg hcorrneg,
    epsteinCore, if_pos hguard1]
  by_cases hP : dot dim (epsteinX2 dim m x) (epsteinX2 dim m x) = 0 ∧ nu = 0
  · rw [if_pos hP, if_pos (show (∀ i < dim, epsteinX2 dim m x i = 0) ∧ nu = 0 from
      ⟨(dot_self_eq_zero_iff dim (epsteinX2 dim m x)).mp hP.1, hP.2⟩)]
    rw [hP.2, show Real.rpow (epsteinMs dim m) (0:ℝ) = 1 from Real.rpow_zero _,
      scaleCD_fromC, Complex.ofReal_one, mul_one]
  · rw [if_neg hP, if_neg (show ¬((∀ i < dim, epsteinX2 dim m x i = 0) ∧ nu = 0) from
      fun hc => hP ⟨(dot_self_eq_zero_iff dim (epsteinX2 dim m x)).mpr hc.1, hc.2⟩),
      scaleCD_fromC_zero]

/-- C3 (witness): the spec scenario `dim = 2`, identity generator,
`x = 0`, `y = (1/4, 1/4)`, `nu = -2`, plain variant: the result is
exactly `0`. -/
theorem epsteinInternal_nonpositive_even_witness :
    epsteinZeta (fun _ _ _ _ _ _ => 0) (-2) 2
      (fun i j => if i = j then 1 else 0) (fun _ => 0) (fun _ => 1/4) = fromC 0 := by
  rw [epsteinZeta, epsteinInternal_nonpositive_even (fun _ _ _ _ _ _ => 0) (-2) 2
      (fun i j => if i = j then 1 else 0) (fun _ => 0) (fun _ => 1/4) 1 0 (fun _ => 0)
      (by norm_num) (Or.inl rfl) (by norm_num)
      ⟨-1, by
        push_cast
        rw [show (-2:ℝ) - 2 * (-1) = 0 from by ring, abs_zero]
        exact zetaEps_pos⟩]
  rw [if_neg]
  rintro ⟨-, hc⟩
  norm_num at hc

/-- C1 (counterexample): at the pole (`nu = dim = 1`, `y = 0`, plain
variant) the engine returns NaN in the real part but `+0`, not NaN, in
the imaginary part: `res = NAN` stores NaN+0i and the componentwise
rescaling by `pow(ms, nu)` keeps the imaginary part zero.  This refutes
the claim that both parts are NaN. -/
theorem epsteinZeta_pole_imag_not_nan :
    (epsteinZeta (fun _ _ _ _ _ _ => 0) 1 1 (fun _ _ => 1)
        (fun _ => 0) (fun _ => 0)).1 = none ∧
    (epsteinZeta (fun _ _ _ _ _ _ => 0) 1 1 (fun _ _ => 1)
        (fun _ => 0) (fun _ => 0)).2 = some 0 ∧
    (epsteinZeta (fun _ _ _ _ _ _ => 0) 1 1 (fun _ _ => 1)
        (fun _ => 0) (fun _ => 0)).2 ≠ none := by
  have hy2 : dot 1 (epsteinY2 1 (fun _ _ => 1) (fun _ => 0))
      (epsteinY2 1 (fun _ _ => 1) (fun _ => 0)) = 0 := by
    rw [epsteinY2_zero_vec]
    simp [dot]
  have hres : epsteinZeta (fun _ _ _ _ _ _ => 0) 1 1 (fun _ _ => 1)
      (fun _ => 0) (fun _ => 0) =
      scaleCD cNaN (Real.rpow (epsteinMs 1 (fun _ _ => 1)) 1) := by
    rw [epsteinZeta, epsteinZetaInternal,
      if_neg (show ¬((0:ℕ) = 2 ∧ mult_abs 1 (fun _ => 0) = 0) from fun hc => by omega),
      if_neg (show ¬((0:ℕ) = 3 ∧ mult_abs 1 (fun _ => 0) = 0) from fun hc => by omega),
      epsteinFull,
      if_neg (show ¬((0:ℕ) = 1 ∧ (1:ℝ) = ((1:ℕ) : ℝ) + 2 * epsteinCorrK 1 1)
        from fun hc => absurd hc.1 (by norm_num)),
      epsteinCore,
      if_neg (show ¬((1:ℝ) < 1 ∧ |(1:ℝ) / 2 - nearbyint (1 / 2)| < zetaEps ∧
          ((0:ℕ) = 0 ∨ (0:ℕ) = 1)) from fun hc => lt_irrefl 1 hc.1),
      if_pos (show |(1:ℝ) - (1:ℕ)| < zetaEps ∧
          dot 1 (epsteinY2 1 (fun _ _ => 1) (fun _ => 0))
            (epsteinY2 1 (fun _ _ => 1) (fun _ => 0)) < epsZeroY ∧ (0:ℕ) = 0 from
        ⟨by rw [Nat.cast_one, sub_self, abs_zero]; exact zetaEps_pos,
         by rw [hy2]; exact epsZeroY_pos, rfl⟩)]
  rw [hres]
  refine ⟨?_, ?_, ?_⟩
  · simp [scaleCD, cNaN, omul, Option.map₂]
  · simp [scaleCD, cNaN, omul, Option.map₂]
  · simp [scaleCD, cNaN, omul, Option.map₂]

/-- C1 (amended): for the plain variant, whenever `|nu - dim| < 2^-30`
and the projected shift `y_t2` satisfies `|y_t2|^2 < 10^-64`, the
returned complex double has a NaN real part and a zero (not NaN)
imaginary part: `res = NAN` stores NaN+0i and the componentwise
rescaling by the real `pow(ms, nu)` preserves the zero imaginary part. -/
theorem epsteinZeta_pole (gder : ℕ → ℝ → (ℕ → ℝ) → ℝ → ℝ → (ℕ → ℕ) → ℂ)
    (nu : ℝ) (dim : ℕ) (m : ℕ → ℕ → ℝ) (x y : ℕ → ℝ) (hdim : 1 ≤ dim)
    (hnu : |nu - dim| < zetaEps)
    (hy : dot dim (epsteinY2 dim m y) (epsteinY2 dim m y) < epsZeroY) :
    epsteinZeta gder nu dim m x y = (none, some 0) := by
  have habs := abs_lt.mp hnu
  have hze : zetaEps ≤ 1/4 := zetaEps_le
  have hguard1 : ¬(nu < 1 ∧ |nu / 2 - nearbyint (nu / 2)| < zetaEps ∧
      ((0:ℕ) = 0 ∨ (0:ℕ) = 1)) := by
    rintro ⟨hlt, hnear, -⟩
    have hd1 : (dim : ℝ) ≥ 1 := by exact_mod_cast hdim
    have hdub : (dim : ℝ) < 1 + zetaEps := by linarith [habs.1]
    have hdim1 : dim = 1 := by
      have h2 : (dim : ℝ) < 2 := by linarith
      have : dim < 2 := by exact_mod_cast h2
      omega
    rw [hdim1] at habs
    have hnu34 : 3/4 < nu := by
      have : ((1:ℕ) : ℝ) = 1 := Nat.cast_one
      rw [this] at habs
      linarith [habs.1]
    have hround : roundEvenZ (nu / 2) = 0 := by
      apply roundEvenZ_eq_of_abs_lt
      rw [abs_lt]
      push_cast
      constructor <;> linarith
    rw [nearbyint, hround, Int.cast_zero, sub_zero, abs_lt] at hnear
    linarith [hnear.2]
  rw [epsteinZeta, epsteinZetaInternal,
    if_neg (show ¬((0:ℕ) = 2 ∧ mult_abs dim (fun _ => 0) = 0) from fun hc => by omega),
    if_neg (show ¬((0:ℕ) = 3 ∧ mult_abs dim (fun _ => 0) = 0) from fun hc => by omega),
    epsteinFull,
    if_neg (show ¬((0:ℕ) = 1 ∧ nu = dim + 2 * epsteinCorrK nu dim)
      from fun hc => by omega),
    epsteinCore, if_neg hguard1, if_pos ⟨hnu, hy, rfl⟩]
  simp [scaleCD, cNaN, omul, Option.map₂]

/-- C1 (witness): the amended claim applied at `nu = dim = 1`,
identity generator, `x = y = 0`. -/
theorem epsteinZeta_pole_witness :
    |(1:ℝ) - ((1:ℕ) : ℝ)| < zetaEps ∧
    dot 1 (epsteinY2 1 (fun _ _ => 1) (fun _ => 0))
      (epsteinY2 1 (fun _ _ => 1) (fun _ => 0)) < epsZeroY ∧
    epsteinZeta (fun _ _ _ _ _ _ => 0) 1 1 (fun _ _ => 1)
      (fun _ => 0) (fun _ => 0) = (none, some 0) := by
  have h1 : |(1:ℝ) - ((1:ℕ) : ℝ)| < zetaEps := by
    rw [Nat.cast_one, sub_self, abs_zero]
    exact zetaEps_pos
  have h2 : dot 1 (epsteinY2 1 (fun _ _ => 1) (fun _ => 0))
      (epsteinY2 1 (fun _ _ => 1) (fun _ => 0)) < epsZeroY := by
    rw [epsteinY2_zero_vec]
    simpa [dot] using epsZeroY_pos
  exact ⟨h1, h2, epsteinZeta_pole (fun _ _ _ _ _ _ => 0) 1 1 (fun _ _ => 1)
    (fun _ => 0) (fun _ => 0) (le_refl 1) h1 h2⟩

/-! ## Infrastructure for the LU error-signalling claim -/

theorem odiv_some_zero (a : Option ℝ) : odiv a (some 0) = none := by
  cases a <;> simp [odiv]

theorem odiv_isSome (a : Option ℝ) (ha : a.isSome) (c : ℝ) (hc : c ≠ 0) :
    (odiv a (some c)).isSome := by
  cases a with
  | none => simp at ha
  | some x => simp [odiv, hc]

theorem omul_isSome (a b : Option ℝ) (ha : a.isSome) (hb : b.isSome) :
    (omul a b).isSome := by
  cases a <;> cases b <;> simp_all [omul]

theorem osub_isSome (a b : Option ℝ) (ha : a.isSome) (hb : b.isSome) :
    (osub a b).isSome := by
  cases a <;> cases b <;> simp_all [osub]

theorem oadd_isSome (a b : Option ℝ) (ha : a.isSome) (hb : b.isSome) :
    (oadd a b).isSome := by
  cases a <;> cases b <;> simp_all [oadd]

/-- Generic fold step lemma: a fold whose step never changes a given cell
leaves that cell unchanged. -/
theorem foldl_cell_invariant {σ : Type} (f : σ → ℕ → σ) (read : σ → Option ℝ)
    (hstep : ∀ st j, read (f st j) = read st) :
    ∀ (L : List ℕ) (st : σ), read (List.foldl f st L) = read st := by
  intro L
  induction L with
  | nil => intro st; rfl
  | cons a L ih => intro st; rw [List.foldl_cons, ih, hstep]

/-- Generic fold lemma: a fold whose step preserves a predicate, given
that its index satisfies a side condition, preserves the predicate. -/
theorem foldl_pred_invariant {σ : Type} (f : σ → ℕ → σ) (P : σ → Prop)
    (good : ℕ → Prop) (hstep : ∀ st j, good j → P st → P (f st j)) :
    ∀ (L : List ℕ) (st : σ), (∀ j ∈ L, good j) → P st → P (List.foldl f st L) := by
  intro L
  induction L with
  | nil => intro st _ hP; exact hP
  | cons a L ih =>
    intro st hgood hP
    rw [List.foldl_cons]
    exact ih (f st a) (fun j hj => hgood j (List.mem_cons_of_mem a hj))
      (hstep st a (hgood a (List.mem_cons_self a L)) hP)

/-- Generic fold lemma: a fold whose step only changes cells named by its
index leaves a cell unchanged if its index is not in the list. -/
theorem foldl_cell_of_not_mem {σ : Type} (f : σ → ℕ → σ) (read : σ → Option ℝ)
    (j0 : ℕ) (hstep : ∀ st j, j ≠ j0 → read (f st j) = read st) :
    ∀ (L : List ℕ) (st : σ), j0 ∉ L → read (List.foldl f st L) = read st := by
  intro L
  induction L with
  | nil => intro st _; rfl
  | cons a L ih =>
    intro st hmem
    rw [List.foldl_cons, ih _ (fun hc => hmem (List.mem_cons_of_mem a hc)),
      hstep st a (fun hc => hmem (hc ▸ List.mem_cons_self a L))]

theorem pivotIndex_cases (dim : ℕ) (m : ℕ → ℕ → Option ℝ) (i : ℕ) :
    pivotIndex dim m i = i ∨ (i < pivotIndex dim m i ∧ pivotIndex dim m i < dim) := by
  rw [pivotIndex]
  have hgen : ∀ (L : List ℕ), (∀ j ∈ L, i < j ∧ j < dim) → ∀ r0 : ℕ,
      (r0 = i ∨ (i < r0 ∧ r0 < dim)) →
      (List.foldl (fun r j => if absGtO (m i j) (m i r) then j else r) r0 L = i ∨
       (i < List.foldl (fun r j => if absGtO (m i j) (m i r) then j else r) r0 L ∧
        List.foldl (fun r j => if absGtO (m i j) (m i r) then j else r) r0 L < dim)) := by
    intro L
    induction L with
    | nil => intro _ r0 h0; exact h0
    | cons a L ih =>
      intro hmem r0 h0
      rw [List.foldl_cons]
      refine ih (fun j hj => hmem j (List.mem_cons_of_mem a hj)) _ ?_
      by_cases hc : absGtO (m i a) (m i r0)
      · rw [if_pos hc]
        exact Or.inr (hmem a (List.mem_cons_self a L))
      · rw [if_neg hc]
        exact h0
  refine hgen _ (fun j hj => ?_) i (Or.inl rfl)
  have := List.mem_range'_1.mp hj
  omega

/-- Rows at or below the step index are untouched by an elimination step
with a strictly larger index. -/
theorem elimStep_row_lt (dim : ℕ) (st : (ℕ → ℕ → Option ℝ) × (ℕ → ℕ)) (ip i j : ℕ)
    (hlt : i < ip) : (elimStep dim st ip).1 i j = st.1 i j := by
  have hr := pivotIndex_cases dim st.1 ip
  rw [elimStep]
  have hik : ¬(ip < i ∧ i < dim ∧ ip ≤ j ∧ j < dim) := by
    rintro ⟨hc, -⟩
    omega
  simp only [if_neg hik]
  rw [swapRows]
  rcases hr with hr | hr
  · rw [if_neg (by omega), if_neg (by rw [hr]; omega)]
  · rw [if_neg (by omega), if_neg (by omega)]

/-- Partial elimination: the first `n` steps of the elimination loop. -/
def elimPrefix (dim : ℕ) (m0 : ℕ → ℕ → Option ℝ) (n : ℕ) :
    (ℕ → ℕ → Option ℝ) × (ℕ → ℕ) :=
  List.foldl (elimStep dim) (m0, fun k => k) (List.range n)

theorem elimState_eq_elimPrefix (dim : ℕ) (m0 : ℕ → ℕ → Option ℝ) :
    elimState dim m0 = elimPrefix dim m0 dim := rfl

theorem elimPrefix_succ (dim : ℕ) (m0 : ℕ → ℕ → Option ℝ) (n : ℕ) :
    elimPrefix dim m0 (n + 1) = elimStep dim (elimPrefix dim m0 n) n := by
  rw [elimPrefix, elimPrefix, List.range_succ, List.foldl_append, List.foldl_cons,
    List.foldl_nil]

/-- Row `i` of the elimination state is frozen after step `i`. -/
theorem elimPrefix_row_frozen (dim : ℕ) (m0 : ℕ → ℕ → Option ℝ) (i j n : ℕ)
    (hn : i + 1 ≤ n) :
    (elimPrefix dim m0 n).1 i j = (elimPrefix dim m0 (i + 1)).1 i j := by
  induction n with
  | zero => omega
  | succ n ih =>
    rcases Nat.lt_or_ge (i + 1) (n + 1) with hlt | hge
    · rw [elimPrefix_succ, elimStep_row_lt dim _ n i j (by omega), ih (by omega)]
    · have : n + 1 = i + 1 := by omega
      rw [this]

/-- The diagonal entry `elimDiag i` is exactly the pivot selected and
divided by at step `i` of the elimination (the entry `(i,i)` right after
the row swap of step `i`). -/
theorem elimDiag_eq_step_pivot (dim : ℕ) (m0 : ℕ → ℕ → Option ℝ) (i : ℕ)
    (hi : i < dim) :
    elimDiag dim m0 i =
      swapRows i (pivotIndex dim (elimPrefix dim m0 i).1 i)
        (elimPrefix dim m0 i).1 i i := by
  rw [elimDiag, elimState_eq_elimPrefix, elimPrefix_row_frozen dim m0 i i dim (by omega),
    elimPrefix_succ, elimStep]
  simp only [if_neg (show ¬(i < i ∧ i < dim ∧ i ≤ i ∧ i < dim) from fun hc => by omega)]

/-- All entries of the leading `dim x dim` block are finite. -/
def allFin (dim : ℕ) (mm : ℕ → ℕ → Option ℝ) : Prop :=
  ∀ i < dim, ∀ j < dim, (mm i j).isSome

theorem swapRows_allFin (dim i r : ℕ) (hi : i < dim) (hr : r < dim)
    (m : ℕ → ℕ → Option ℝ) (h : allFin dim m) : allFin dim (swapRows i r m) := by
  intro k hk j hj
  rw [swapRows]
  split_ifs with h1 h2
  · exact h r hr j hj
  · exact h i hi j hj
  · exact h k hk j hj

theorem elimStep_allFin (dim : ℕ) (st : (ℕ → ℕ → Option ℝ) × (ℕ → ℕ)) (n : ℕ)
    (hn : n < dim) (hP : allFin dim st.1)
    (hpiv : swapRows n (pivotIndex dim st.1 n) st.1 n n ≠ some 0) :
    allFin dim (elimStep dim st n).1 := by
  have hrlt : pivotIndex dim st.1 n < dim := by
    rcases pivotIndex_cases dim st.1 n with h | h
    · omega
    · exact h.2
  have hmm : allFin dim (swapRows n (pivotIndex dim st.1 n) st.1) :=
    swapRows_allFin dim n _ hn hrlt st.1 hP
  obtain ⟨c, hc⟩ := Option.isSome_iff_exists.mp (hmm n hn n hn)
  have hcne : c ≠ 0 := fun h0 => hpiv (by rw [hc, h0])
  intro k hk j hj
  rw [elimStep]
  dsimp only
  split_ifs with h1 h2
  · rw [hc]
    exact odiv_isSome _ (hmm k hk n hn) c hcne
  · refine osub_isSome _ _ (hmm k hk j hj) (omul_isSome _ _ ?_ (hmm n hn j hj))
    rw [hc]
    exact odiv_isSome _ (hmm k hk n hn) c hcne
  · exact hmm k hk j hj

theorem elimPrefix_allFin (dim : ℕ) (m0 : ℕ → ℕ → Option ℝ)
    (hfin : allFin dim m0) (hdiag : ∀ i < dim, elimDiag dim m0 i ≠ some 0) :
    ∀ n, n ≤ dim → allFin dim (elimPrefix dim m0 n).1 := by
  intro n
  induction n with
  | zero => intro _; exact hfin
  | succ n ih =>
    intro hn
    rw [elimPrefix_succ]
    refine elimStep_allFin dim _ n (by omega) (ih (by omega)) ?_
    intro hz
    exact hdiag n (by omega) ((elimDiag_eq_step_pivot dim m0 n (by omega)).trans hz)

theorem elimDiag_some_nonzero (dim : ℕ) (m0 : ℕ → ℕ → Option ℝ)
    (hfin : allFin dim m0) (hdiag : ∀ i < dim, elimDiag dim m0 i ≠ some 0)
    (i : ℕ) (hi : i < dim) :
    ∃ c : ℝ, c ≠ 0 ∧ (elimState dim m0).1 i i = some c := by
  have hall := elimPrefix_allFin dim m0 hfin hdiag dim (le_refl dim)
  rw [elimState_eq_elimPrefix]
  obtain ⟨c, hc⟩ := Option.isSome_iff_exists.mp (hall i hi i hi)
  refine ⟨c, fun h0 => ?_, hc⟩
  exact hdiag i hi (by rw [elimDiag, elimState_eq_elimPrefix, hc, h0])

theorem forwardSolve_isSome (dim : ℕ) (M : ℕ → ℕ → Option ℝ) (hM : allFin dim M)
    (p : ℕ) : ∀ n, (forwardSolve dim M p n).isSome := by
  rw [forwardSolve]
  refine foldl_pred_invariant _ (fun y : ℕ → Option ℝ => ∀ n, (y n).isSome) (fun k => k < dim)
    ?_ _ _ ?_ ?_
  · intro y k hk hy n
    rw [Function.update]
    split_ifs with hnk
    · subst hnk
      dsimp only
      refine foldl_pred_invariant _ (fun acc : Option ℝ => acc.isSome) (fun j => j < dim)
        ?_ _ _ ?_ (by simp)
      · intro acc j hj hacc
        exact osub_isSome _ _ hacc (omul_isSome _ _ (hM n hk j hj) (hy j))
      · intro j hj
        have := List.mem_range'_1.mp hj
        omega
    · exact hy n
  · intro j hj
    have := List.mem_range'_1.mp hj
    omega
  · intro n
    by_cases hc : n = p <;> simp [hc]

theorem backSolve_allSome (dim : ℕ) (M : ℕ → ℕ → Option ℝ) (hM : allFin dim M)
    (hdg : ∀ j < dim, ∃ c : ℝ, c ≠ 0 ∧ M j j = some c) (y : ℕ → Option ℝ)
    (hy : ∀ n, (y n).isSome) (i : ℕ) (rm : ℕ → ℕ → Option ℝ)
    (hrm : ∀ k l, (rm k l).isSome) :
    ∀ k l, (backSolve dim M y i rm k l).isSome := by
  rw [backSolve]
  refine foldl_pred_invariant _ (fun rm2 : ℕ → ℕ → Option ℝ => ∀ k l, (rm2 k l).isSome)
    (fun j => j < dim) ?_ _ _ ?_ hrm
  · intro rm2 j hj hrm2 k l
    dsimp only
    split_ifs with hkl
    · obtain ⟨c, hcne, hc⟩ := hdg j hj
      rw [hc]
      refine odiv_isSome _ ?_ c hcne
      refine foldl_pred_invariant _ (fun acc : Option ℝ => acc.isSome) (fun kk => kk < dim)
        ?_ _ _ ?_ (hy j)
      · intro acc kk hkk hacc
        exact osub_isSome _ _ hacc (omul_isSome _ _ (hM j hj kk hkk) (hrm2 kk i))
      · intro kk hkk
        have := List.mem_range'_1.mp hkk
        omega
    · exact hrm2 k l
  · intro j hj
    exact List.mem_range.mp (List.mem_reverse.mp hj)

theorem backSolve_col_ne (dim : ℕ) (M : ℕ → ℕ → Option ℝ) (y : ℕ → Option ℝ)
    (i : ℕ) (rm : ℕ → ℕ → Option ℝ) (k l : ℕ) (hne : l ≠ i) :
    backSolve dim M y i rm k l = rm k l := by
  rw [backSolve]
  refine foldl_cell_invariant _ (fun rm2 : ℕ → ℕ → Option ℝ => rm2 k l) ?_ _ rm
  intro st j
  dsimp only
  rw [if_neg (fun hc => hne hc.2)]

/-- In a fold whose step writes only the row named by its index, and at
index `j0` writes row `j0` of column `i` with a value divided by
`M j0 j0`, the final cell `(j0, i)` is such a quotient whenever `j0`
occurs in a duplicate-free index list. -/
theorem foldl_write_shape (f : (ℕ → ℕ → Option ℝ) → ℕ → (ℕ → ℕ → Option ℝ))
    (M : ℕ → ℕ → Option ℝ) (i j0 : ℕ)
    (hpres : ∀ st j k l, k ≠ j → f st j k l = st k l)
    (hwrite : ∀ st, ∃ num, f st j0 j0 i = odiv num (M j0 j0)) :
    ∀ (L : List ℕ), L.Nodup → j0 ∈ L → ∀ rm,
      ∃ num, List.foldl f rm L j0 i = odiv num (M j0 j0) := by
  intro L
  induction L with
  | nil => intro _ h; cases h
  | cons a L ih =>
    intro hnd hmem rm
    rw [List.foldl_cons]
    by_cases haj : a = j0
    · subst haj
      have hnotmem : a ∉ L := (List.nodup_cons.mp hnd).1
      have hp : (List.foldl f (f rm a) L) a i = (f rm a) a i :=
        foldl_cell_of_not_mem f (fun st => st a i) a
          (fun st j hj => hpres st j a i (fun hc => hj hc.symm)) L (f rm a) hnotmem
      obtain ⟨num, hnum⟩ := hwrite rm
      exact ⟨num, hp.trans hnum⟩
    · have hmem2 : j0 ∈ L := by
        rcases List.mem_cons.mp hmem with h | h
        · exact absurd h.symm haj
        · exact h
      exact ih (List.nodup_cons.mp hnd).2 hmem2 (f rm a)

theorem backSolve_row_written (dim : ℕ) (M : ℕ → ℕ → Option ℝ) (y : ℕ → Option ℝ)
    (i : ℕ) (rm : ℕ → ℕ → Option ℝ) (j0 : ℕ) (hj0 : j0 < dim) :
    ∃ num, backSolve dim M y i rm j0 i = odiv num (M j0 j0) := by
  rw [backSolve]
  refine foldl_write_shape _ M i j0 ?_ ?_ _ ?_ ?_ rm
  · intro st j k l hk
    dsimp only
    rw [if_neg (fun hc => hk hc.1)]
  · intro st
    refine ⟨List.foldl (fun acc k => osub acc (omul (M j0 k) (st k i))) (y j0)
        (List.range' (j0+1) (dim - (j0+1))), ?_⟩
    dsimp only
    rw [if_pos ⟨rfl, rfl⟩]
  · exact List.nodup_reverse.mpr (List.nodup_range dim)
  · exact List.mem_reverse.mpr (List.mem_range.mpr hj0)

theorem invert_allSome (dim : ℕ) (m0 : ℕ → ℕ → Option ℝ)
    (hfin : allFin dim m0) (hdiag : ∀ i < dim, elimDiag dim m0 i ≠ some 0) :
    ∀ k l, (invert dim m0 k l).isSome := by
  have hM : allFin dim (elimState dim m0).1 := by
    rw [elimState_eq_elimPrefix]
    exact elimPrefix_allFin dim m0 hfin hdiag dim (le_refl dim)
  rw [invert]
  refine foldl_pred_invariant _ (fun rm : ℕ → ℕ → Option ℝ => ∀ k l, (rm k l).isSome)
    (fun _ => True) ?_ _ _ (fun _ _ => trivial) (fun k l => rfl)
  intro rm i _ hrm
  exact backSolve_allSome dim _ hM
    (fun j hj => elimDiag_some_nonzero dim m0 hfin hdiag j hj)
    _ (forwardSolve_isSome dim _ hM _) i rm hrm

theorem invert_none_of_zero_pivot (dim : ℕ) (m0 : ℕ → ℕ → Option ℝ)
    (hdim : 0 < dim) (i0 : ℕ) (hi0 : i0 < dim)
    (hz : elimDiag dim m0 i0 = some 0) : invert dim m0 i0 0 = none := by
  rw [elimDiag] at hz
  rw [invert]
  obtain ⟨d, rfl⟩ : ∃ d, dim = d + 1 := ⟨dim - 1, by omega⟩
  rw [List.range_succ_eq_map, List.foldl_cons]
  have hpres :
      (List.foldl
        (fun rm i => backSolve (d+1) (elimState (d+1) m0).1
          (forwardSolve (d+1) (elimState (d+1) m0).1 ((elimState (d+1) m0).2 i)) i rm)
        (backSolve (d+1) (elimState (d+1) m0).1
          (forwardSolve (d+1) (elimState (d+1) m0).1 ((elimState (d+1) m0).2 0)) 0
          (fun _ _ => some 0))
        (List.map Nat.succ (List.range d))) i0 0 =
      (backSolve (d+1) (elimState (d+1) m0).1
        (forwardSolve (d+1) (elimState (d+1) m0).1 ((elimState (d+1) m0).2 0)) 0
        (fun _ _ => some 0)) i0 0 := by
    refine foldl_cell_of_not_mem _ (fun rm : ℕ → ℕ → Option ℝ => rm i0 0) 0 ?_ _ _ ?_
    · intro st j hj
      exact backSolve_col_ne (d+1) _ _ j st i0 0 (fun hc => hj hc.symm)
    · simp
  rw [hpres]
  obtain ⟨num, hnum⟩ := backSolve_row_written (d+1) (elimState (d+1) m0).1
    (forwardSolve (d+1) (elimState (d+1) m0).1 ((elimState (d+1) m0).2 0)) 0
    (fun _ _ => some 0) i0 hi0
  rw [hnum, hz]
  exact odiv_some_zero num

/-- C10: the LU inversion routine of tools.c has no pivot tolerance
check and no explicit error channel; on a finite input matrix its output
contains a non-finite entry (the way a singular generator surfaces,
eventually as NaN) if and only if an exact-zero pivot is encountered
during the elimination, and on every matrix whose pivots are all nonzero
it completes with finite entries throughout (no error). -/
theorem invert_error_iff_zero_pivot (dim : ℕ) (m0 : ℕ → ℕ → Option ℝ)
    (hdim : 0 < dim) (hfin : ∀ i < dim, ∀ j < dim, (m0 i j).isSome) :
    ((∃ i < dim, elimDiag dim m0 i = some 0) ↔
      ∃ i < dim, ∃ j < dim, invert dim m0 i j = none) ∧
    ((∀ i < dim, elimDiag dim m0 i ≠ some 0) →
      ∀ i < dim, ∀ j < dim, (invert dim m0 i j).isSome) := by
  have hcomplete : (∀ i < dim, elimDiag dim m0 i ≠ some 0) →
      ∀ i < dim, ∀ j < dim, (invert dim m0 i j).isSome :=
    fun hdiag i _ j _ => invert_allSome dim m0 hfin hdiag i j
  refine ⟨⟨?_, ?_⟩, hcomplete⟩
  · rintro ⟨i0, hi0, hz⟩
    exact ⟨i0, hi0, 0, hdim, invert_none_of_zero_pivot dim m0 hdim i0 hi0 hz⟩
  · rintro ⟨i, hi, j, hj, hnone⟩
    by_contra hc
    push_neg at hc
    have := hcomplete hc i hi j hj
    rw [hnone] at this
    simp at this

/-- C10 (witness): the characterization applied to the 1-by-1 matrix
`(2)`, which is finite. -/
theorem invert_error_iff_zero_pivot_witness :
    ((∃ i < 1, elimDiag 1 (fun _ _ => some (2:ℝ)) i = some 0) ↔
      ∃ i < 1, ∃ j < 1, invert 1 (fun _ _ => some (2:ℝ)) i j = none) ∧
    ((∀ i < 1, elimDiag 1 (fun _ _ => some (2:ℝ)) i ≠ some 0) →
      ∀ i < 1, ∀ j < 1, (invert 1 (fun _ _ => some (2:ℝ)) i j).isSome) :=
  invert_error_iff_zero_pivot 1 (fun _ _ => some 2) one_pos
    (fun i _ j _ => by simp)

/-! ## Claim theorems -/

/-- C5 (counterexample): at `(a, x) = (0, 1)` the hypotheses of the claim
hold (`a ≤ alpha`, `x ≤ 1.5`, `a ≥ -1/2`), yet the `egf_domain`
dispatcher does not select the Taylor-series regime PT: it selects QT. -/
theorem egf_domain_low_corner_counterexample :
    (0:ℝ) ≤ egfAlpha 1 ∧ (1:ℝ) ≤ 1.5 ∧ (-0.5:ℝ) ≤ 0 ∧
      egf_domain 0 1 = EgfDom.qt ∧ egf_domain 0 1 ≠ EgfDom.pt := by
  have ha : egfAlpha 1 = 1 := by rw [egfAlpha, if_pos (by norm_num)]
  have hd : egf_domain 0 1 = EgfDom.qt := by
    rw [egf_domain, if_pos (by rw [ha]; norm_num), if_pos (by norm_num)]
  refine ⟨by rw [ha]; norm_num, by norm_num, by norm_num, hd, ?_⟩
  rw [hd]
  exact fun hco => EgfDom.noConfusion hco

/-- C5 (amended): in the low corner `a ≤ alpha`, `x ≤ 1.5`, `a ≥ -1/2`,
the `egf_domain` dispatcher selects Gautschi's QT regime, and it is the
`gammaStar` selector `egf_ldomain` that selects the Taylor-series regime
PT there. -/
theorem egf_domain_low_corner (a x : ℝ) (h1 : a ≤ egfAlpha x) (h2 : x ≤ 1.5)
    (h3 : -0.5 ≤ a) :
    egf_domain a x = EgfDom.qt ∧ egf_ldomain a x = EgfDom.pt := by
  constructor
  · rw [egf_domain, if_pos h1, if_pos ⟨h2, h3⟩]
  · rw [egf_ldomain, if_pos h1, if_pos ⟨h2, Or.inl h3⟩]

/-- C5 (witness): the amended claim applied at `(a, x) = (0, 1)`. -/
theorem egf_domain_low_corner_witness :
    egf_domain 0 1 = EgfDom.qt ∧ egf_ldomain 0 1 = EgfDom.pt :=
  egf_domain_low_corner 0 1
    (by rw [egfAlpha, if_pos (by norm_num)]; norm_num) (by norm_num) (by norm_num)

/-- C7: at `x = 0`, `egf_gammaStar` returns `1 / Gamma(a+1)`, except that
it returns `0` when `a ≤ 0.1` and `a` lies within `2^-54` of a
non-positive integer. -/
theorem egf_gammaStar_at_zero (a : ℝ) :
    egf_gammaStar a 0 =
      if a ≤ 0.1 ∧ ∃ n : ℤ, n ≤ 0 ∧ |a - (n : ℝ)| < egfEps then 0
      else 1 / Real.Gamma (a + 1) := by
  have heps : egfEps < 1/2 := egfEps_lt_half
  have h0 : |(0:ℝ)| < egfEps := by rw [abs_zero]; exact egfEps_pos
  rw [egf_gammaStar, if_pos h0]
  by_cases hc : a ≤ 0.1 ∧ |a - nearbyint a| < egfEps
  · rw [if_pos hc, if_pos]
    obtain ⟨ha, hd⟩ := hc
    rw [nearbyint] at hd
    refine ⟨ha, roundEvenZ a, ?_, hd⟩
    have habs := abs_lt.mp hd
    have hcast : (roundEvenZ a : ℝ) < 1 := by linarith [habs.1, habs.2]
    have : roundEvenZ a < 1 := by exact_mod_cast hcast
    omega
  · rw [if_neg hc, if_neg]
    rintro ⟨ha, n, hn, hd⟩
    exact hc ⟨ha, by
      rw [nearbyint, roundEvenZ_eq_of_abs_lt a n (lt_trans hd heps)]
      exact hd⟩

/-- C6 (counterexample): with `dim = 1`, generator `1` and its inverse
transpose `1`, the input `v = -1/2` has cell coordinate `-1/2`, so the
projection branch runs; the returned vector again has cell coordinate
`-1/2`, which does NOT lie in the half-open interval `(-1/2, 1/2]`
asserted by the claim. -/
theorem vectorProj_boundary_counterexample :
    tCoord 1 (fun _ _ => (1:ℝ)) (vectorProj 1 (fun _ _ => 1) (fun _ _ => 1)
        (fun _ => -(1/2))) 0 = -(1/2) ∧ ¬ (-(1/2:ℝ) < -(1/2)) := by
  have ht : ∀ j, tCoord 1 (fun _ _ => (1:ℝ)) (fun _ => -(1/2)) j = -(1/2) := by
    intro j; simp [tCoord]
  have hproj : vectorProj 1 (fun _ _ => (1:ℝ)) (fun _ _ => 1) (fun _ => -(1/2)) =
      fun i => ∑ j ∈ Finset.range 1, (1:ℝ) * fpRemainder
        (tCoord 1 (fun _ _ => (1:ℝ)) (fun _ => -(1/2)) j) := by
    rw [vectorProj, if_pos]
    exact ⟨0, Finset.mem_range.mpr one_pos, Or.inl (by rw [ht 0]; norm_num)⟩
  constructor
  · rw [hproj, tCoord]
    simp only [Finset.sum_range_one, one_mul, ht]
    rw [fpRemainder_of_mem (-(1/2)) (by norm_num) (by norm_num)]
  · norm_num

/-- C6 (amended): for the cell projection with mutually inverse
generator pair, (1) when every cell coordinate of `v` lies strictly
inside `(-1/2, 1/2)` and up to the closed right endpoint `1/2`, the
returned vector equals `v` componentwise; (2) when some coordinate
leaves `(-1/2, 1/2)`, the result is `m` applied to the componentwise
`remainder(t_i, 1)`; (3) every cell coordinate of the returned vector
lies in the CLOSED interval `[-1/2, 1/2]` (the claim's half-open
`(-1/2, 1/2]` fails at `-1/2`). -/
theorem vectorProj_cell (dim : ℕ) (m m_invt : ℕ → ℕ → ℝ) (v : ℕ → ℝ)
    (hinv1 : ∀ (u : ℕ → ℝ) (i : ℕ), i < dim →
      ∑ j ∈ Finset.range dim, m_invt j i * (∑ k ∈ Finset.range dim, m j k * u k) = u i)
    (hinv2 : ∀ (u : ℕ → ℝ) (i : ℕ), i < dim →
      ∑ j ∈ Finset.range dim, m i j * (∑ k ∈ Finset.range dim, m_invt k j * u k) = u i) :
    ((∀ i < dim, -(1/2) < tCoord dim m_invt v i ∧ tCoord dim m_invt v i ≤ 1/2) →
      ∀ i < dim, vectorProj dim m m_invt v i = v i) ∧
    ((∃ i < dim, tCoord dim m_invt v i ≤ -(1/2) ∨ (1/2:ℝ) ≤ tCoord dim m_invt v i) →
      vectorProj dim m m_invt v =
        fun i => ∑ j ∈ Finset.range dim, m i j * fpRemainder (tCoord dim m_invt v j)) ∧
    (∀ i < dim, -(1/2) ≤ tCoord dim m_invt (vectorProj dim m m_invt v) i ∧
      tCoord dim m_invt (vectorProj dim m m_invt v) i ≤ 1/2) := by
  have hproj : (∃ i ∈ Finset.range dim, tCoord dim m_invt v i ≤ -0.5 ∨
      0.5 ≤ tCoord dim m_invt v i) ↔
      (∃ i < dim, tCoord dim m_invt v i ≤ -(1/2) ∨ (1/2:ℝ) ≤ tCoord dim m_invt v i) := by
    constructor
    · rintro ⟨i, hi, hcase⟩
      exact ⟨i, Finset.mem_range.mp hi, by norm_num at hcase ⊢; exact hcase⟩
    · rintro ⟨i, hi, hcase⟩
      exact ⟨i, Finset.mem_range.mpr hi, by norm_num at hcase ⊢; exact hcase⟩
  refine ⟨?_, ?_, ?_⟩
  · intro hin i hi
    by_cases htodo : ∃ i ∈ Finset.range dim, tCoord dim m_invt v i ≤ -0.5 ∨
        0.5 ≤ tCoord dim m_invt v i
    · rw [vectorProj, if_pos htodo]
      have hfix : ∀ j ∈ Finset.range dim,
          m i j * fpRemainder (tCoord dim m_invt v j) = m i j * tCoord dim m_invt v j := by
        intro j hj
        obtain ⟨hlo, hhi⟩ := hin j (Finset.mem_range.mp hj)
        rw [fpRemainder_of_mem _ (le_of_lt hlo) hhi]
      rw [Finset.sum_congr rfl hfix]
      exact hinv2 v i hi
    · rw [vectorProj, if_neg htodo]
  · intro hex
    rw [vectorProj, if_pos (hproj.mpr hex)]
  · by_cases htodo : ∃ i ∈ Finset.range dim, tCoord dim m_invt v i ≤ -0.5 ∨
        0.5 ≤ tCoord dim m_invt v i
    · intro i hi
      rw [vectorProj, if_pos htodo]
      have hval : tCoord dim m_invt
          (fun i2 => ∑ j ∈ Finset.range dim, m i2 j * fpRemainder (tCoord dim m_invt v j)) i =
          fpRemainder (tCoord dim m_invt v i) := by
        rw [tCoord]
        exact hinv1 (fun j => fpRemainder (tCoord dim m_invt v j)) i hi
      rw [hval]
      have := abs_fpRemainder_le (tCoord dim m_invt v i)
      rw [abs_le] at this
      exact this
    · intro i hi
      rw [vectorProj, if_neg htodo]
      push_neg at htodo
      have := htodo i (Finset.mem_range.mpr hi)
      push_neg at this
      constructor
      · norm_num at this; linarith [this.1]
      · norm_num at this; linarith [this.2]

/-- C4: the older-revision `crandall_gReg(dim, s, z, lambda)` takes its
dedicated expansion exactly when `s` is a non-positive even integer
`s = -2k`: the 10-coefficient Taylor series when `k = 0` (that is,
`s = 0`) and `arg < 0.01 pi`, the value `1/k` when `arg = 0` and
`k > 0`, otherwise `arg^k (Gamma(-k, arg) + (-1)^k/k! log arg)`, in all
three sub-cases followed by subtracting `arg^k log(lambda^2)`; for every
other `s` the value is `-Gamma(s/2) gammaStar(s/2, arg)`. -/
theorem crandall_gReg_even_dispatch (dim : ℕ) (s : ℝ) (z : ℕ → ℝ) (pf : ℝ) :
    (∀ k : ℕ, s = -(2 * k) →
      CRev.crandall_gReg dim s z pf =
        (if k = 0 ∧ crandallArg dim z pf < 0.1 * 0.1 * Real.pi then
           ∑ i ∈ Finset.range 10, CRev.gRegTaylor i * crandallArg dim z pf ^ i
         else if crandallArg dim z pf = 0 ∧ 0 < k then 1 / (k : ℝ)
         else crandallArg dim z pf ^ k *
           (egf_ugamma (-(k : ℝ)) (crandallArg dim z pf) +
            (-1 : ℝ) ^ k / (k.factorial : ℝ) * Real.log (crandallArg dim z pf)))
        - crandallArg dim z pf ^ k * Real.log (pf * pf)) ∧
    ((∀ k : ℕ, s ≠ -(2 * k)) →
      CRev.crandall_gReg dim s z pf =
        -Real.Gamma (s / 2) * egf_gammaStar (s / 2) (crandallArg dim z pf)) := by
  have hcut : (0:ℝ) < 0.1 * 0.1 * Real.pi := by positivity
  constructor
  · intro k hk
    have hhalf : s / 2 = ((-(k : ℤ) : ℤ) : ℝ) := by rw [hk]; push_cast; ring
    have hnb : nearbyint (s / 2) = -(k : ℝ) := by
      rw [nearbyint, hhalf, roundEvenZ_intCast]; push_cast; ring
    have hneg : -nearbyint (s / 2) = (k : ℝ) := by rw [hnb]; ring
    have hguard : s < 1 ∧ s = -2 * -nearbyint (s / 2) := by
      refine ⟨?_, ?_⟩
      · rw [hk]
        have : (0:ℝ) ≤ (k:ℝ) := Nat.cast_nonneg k
        linarith
      · rw [hneg, hk]; ring
    rw [CRev.crandall_gReg, if_pos hguard, CRev.crandall_gReg_nuequalsdimplus2k, hneg]
    have hpowk : Real.rpow (crandallArg dim z pf) (k : ℝ) = crandallArg dim z pf ^ k :=
      Real.rpow_natCast _ k
    have hm1k : Real.rpow (-1 : ℝ) (k : ℝ) = (-1 : ℝ) ^ k := Real.rpow_natCast _ k
    have hfac : Real.Gamma ((k : ℝ) + 1) = (k.factorial : ℝ) := by
      exact_mod_cast Real.Gamma_nat_eq_factorial k
    rcases Nat.eq_zero_or_pos k with hk0 | hkpos
    · subst hk0
      have hs0 : s = 0 := by rw [hk]; norm_num
      by_cases harg : crandallArg dim z pf < 0.1 * 0.1 * Real.pi
      · rw [if_pos (show s = 0 ∧ crandallArg dim z pf < 0.1 * 0.1 * Real.pi from ⟨hs0, harg⟩),
          if_pos (show (0:ℕ) = 0 ∧ crandallArg dim z pf < 0.1 * 0.1 * Real.pi from ⟨rfl, harg⟩),
          hpowk]
        congr 1
        refine Finset.sum_congr rfl fun i _ => ?_
        exact congrArg (fun t => CRev.gRegTaylor i * t) (Real.rpow_natCast _ i)
      · have hargne : crandallArg dim z pf ≠ 0 := fun h0 => harg (h0 ▸ hcut)
        rw [if_neg (show ¬(s = 0 ∧ crandallArg dim z pf < 0.1 * 0.1 * Real.pi)
              from fun hcon => harg hcon.2),
          if_neg (show ¬((0:ℕ) = 0 ∧ crandallArg dim z pf < 0.1 * 0.1 * Real.pi)
              from fun hcon => harg hcon.2),
          if_neg (show ¬(crandallArg dim z pf = 0) from hargne),
          if_neg (show ¬(crandallArg dim z pf = 0 ∧ 0 < (0:ℕ))
              from fun hcon => lt_irrefl 0 hcon.2),
          hpowk, hm1k, hfac]
    · have hkne : k ≠ 0 := by omega
      have hknez : (k : ℝ) ≠ 0 := Nat.cast_ne_zero.mpr hkne
      have hsne : ¬(s = 0 ∧ crandallArg dim z pf < 0.1 * 0.1 * Real.pi) := by
        rintro ⟨hs0, -⟩
        rw [hk] at hs0
        exact hknez (by linarith)
      have hkne2 : ¬(k = 0 ∧ crandallArg dim z pf < 0.1 * 0.1 * Real.pi) :=
        fun hcon => hkne hcon.1
      rw [if_neg hsne, if_neg hkne2]
      by_cases harg : crandallArg dim z pf = 0
      · rw [if_pos harg,
          if_pos (show crandallArg dim z pf = 0 ∧ 0 < k from ⟨harg, hkpos⟩), hpowk]
      · rw [if_neg harg,
          if_neg (show ¬(crandallArg dim z pf = 0 ∧ 0 < k) from fun hcon => harg hcon.1),
          hpowk, hm1k, hfac]
  · intro hnk
    rw [CRev.crandall_gReg, if_neg]
    rintro ⟨hs1, hs2⟩
    rw [nearbyint] at hs2
    have hz : s = 2 * ((roundEvenZ (s / 2) : ℤ) : ℝ) := by linarith [hs2]
    have hzle : roundEvenZ (s / 2) ≤ 0 := by
      by_contra hpos
      push_neg at hpos
      have h1 : (1:ℝ) ≤ ((roundEvenZ (s / 2) : ℤ) : ℝ) := by exact_mod_cast hpos
      linarith
    refine hnk (-(roundEvenZ (s / 2))).toNat ?_
    have hcast : (((-(roundEvenZ (s / 2))).toNat : ℕ) : ℝ) =
        -((roundEvenZ (s / 2) : ℤ) : ℝ) := by
      have h2 : ((-(roundEvenZ (s / 2))).toNat : ℤ) = -(roundEvenZ (s / 2)) :=
        Int.toNat_of_nonneg (by omega)
      push_cast at h2 ⊢
      exact_mod_cast h2
    rw [hcast]
    linarith [hz]

/-- C4 (witness): the dispatch theorem applied at `dim = 1`, `s = -2`
(so `k = 1`), `z = (1)`, `lambda = 1`. -/
theorem crandall_gReg_even_dispatch_witness :
    CRev.crandall_gReg 1 (-2) (fun _ => (1:ℝ)) 1 =
      (if (1:ℕ) = 0 ∧ crandallArg 1 (fun _ => (1:ℝ)) 1 < 0.1 * 0.1 * Real.pi then
         ∑ i ∈ Finset.range 10, CRev.gRegTaylor i * crandallArg 1 (fun _ => (1:ℝ)) 1 ^ i
       else if crandallArg 1 (fun _ => (1:ℝ)) 1 = 0 ∧ 0 < (1:ℕ) then 1 / ((1:ℕ) : ℝ)
       else crandallArg 1 (fun _ => (1:ℝ)) 1 ^ (1:ℕ) *
         (egf_ugamma (-((1:ℕ) : ℝ)) (crandallArg 1 (fun _ => (1:ℝ)) 1) +
          (-1 : ℝ) ^ (1:ℕ) / ((1:ℕ).factorial : ℝ) *
            Real.log (crandallArg 1 (fun _ => (1:ℝ)) 1)))
      - crandallArg 1 (fun _ => (1:ℝ)) 1 ^ (1:ℕ) * Real.log ((1:ℝ) * 1) :=
  (crandall_gReg_even_dispatch 1 (-2) (fun _ => (1:ℝ)) 1).1 1 (by norm_num)

/-- C6 (witness): the amended claim applied at `dim = 1`,
`m = m_invt = 1`, `v = 0.3`: the returned vector has its cell coordinate
in `[-1/2, 1/2]`. -/
theorem vectorProj_cell_witness :
    -(1/2) ≤ tCoord 1 (fun _ _ => (1:ℝ))
        (vectorProj 1 (fun _ _ => 1) (fun _ _ => 1) (fun _ => 0.3)) 0 ∧
      tCoord 1 (fun _ _ => (1:ℝ))
        (vectorProj 1 (fun _ _ => 1) (fun _ _ => 1) (fun _ => 0.3)) 0 ≤ 1/2 := by
  have hinv : ∀ (u : ℕ → ℝ) (i : ℕ), i < 1 →
      ∑ j ∈ Finset.range 1, (1:ℝ) * (∑ k ∈ Finset.range 1, (1:ℝ) * u k) = u i := by
    intro u i hi
    obtain rfl : i = 0 := by omega
    simp
  exact (vectorProj_cell 1 (fun _ _ => 1) (fun _ _ => 1) (fun _ => 0.3)
    hinv hinv).2.2 0 one_pos

end Epstein
